import Mathlib

/-!
Verification of the single-endpoint redirect handler (`api/r.js`).

The JavaScript source is shallowly embedded below:
* `decodeURIComponent` is modelled as a strict one-pass percent-decoder
  producing UTF-8 code points (failing like the JS builtin on malformed
  escapes or invalid byte sequences);
* `new URL(...)` / `URL#toString` are modelled by `parseURL` / `serializeURL`,
  a subset of the WHATWG URL parser covering http/https special URLs
  (scheme and host lower-casing, default-port elision, userinfo splitting,
  path/query/fragment splitting and percent-encoding) and treating all other
  schemes as opaque `scheme:rest` URLs.  IPv6 hosts, percent-escapes in
  hosts, and dot-segment normalization are outside the modelled subset;
* the handler itself (`handler`) is a pure function from the request, the
  environment, and the (ignored) outcome of the tracker call to the emitted
  response paired with the outbound tracker request, if one is attempted.
-/

namespace Redirect

/-! ### Character helpers -/

def isAsciiUpper (c : Char) : Bool := 65 ≤ c.toNat && c.toNat ≤ 90

def lowerCh (c : Char) : Char := if isAsciiUpper c then Char.ofNat (c.toNat + 32) else c

def isDigitCh (c : Char) : Bool := 48 ≤ c.toNat && c.toNat ≤ 57

def isAlphaCh (c : Char) : Bool :=
  (97 ≤ c.toNat && c.toNat ≤ 122) || (65 ≤ c.toNat && c.toNat ≤ 90)

/-- Characters allowed after the first letter of a URI scheme,
per the regex `[a-zA-Z0-9+.-]` in `normalizeDest`. -/
def isSchemeChar (c : Char) : Bool :=
  isAlphaCh c || isDigitCh c || c == '+' || c == '.' || c == '-'

/-- Tail of the test for `/^[a-zA-Z][a-zA-Z0-9+.-]*:\/\//`: after the leading
letter, scheme characters until a literal `://`. -/
def schemeRest : List Char → Bool
  | ':' :: '/' :: '/' :: _ => true
  | c :: rest => isSchemeChar c && schemeRest rest
  | [] => false

/-- Model of `/^[a-zA-Z][a-zA-Z0-9+.-]*:\/\//.test raw` in `normalizeDest`. -/
def hasScheme (s : String) : Bool :=
  match s.data with
  | c :: rest => isAlphaCh c && schemeRest rest
  | [] => false

/-! ### decodeURIComponent -/

def hexVal (c : Char) : Option Nat :=
  if 48 ≤ c.toNat && c.toNat ≤ 57 then some (c.toNat - 48)
  else if 65 ≤ c.toNat && c.toNat ≤ 70 then some (c.toNat - 55)
  else if 97 ≤ c.toNat && c.toNat ≤ 102 then some (c.toNat - 87)
  else none

/-- Read a `%HH` escape from the head of the list, returning the byte value
and the remaining characters. -/
def readHexByte : List Char → Option (Nat × List Char)
  | '%' :: h1 :: h2 :: rest =>
    match hexVal h1, hexVal h2 with
    | some a, some b => some (16 * a + b, rest)
    | _, _ => none
  | _ => none

def isContByte (b : Nat) : Bool := 128 ≤ b && b ≤ 191

/-- Decode one UTF-8 sequence of `%HH` escapes starting at the head of the
list (which must begin with `%`), as `decodeURIComponent` does. -/
def decodeSeq (l : List Char) : Option (Char × List Char) :=
  match readHexByte l with
  | none => none
  | some (b, r1) =>
    if b < 128 then some (Char.ofNat b, r1)
    else if 194 ≤ b && b ≤ 223 then
      match readHexByte r1 with
      | some (b1, r2) =>
        if isContByte b1 then some (Char.ofNat ((b - 192) * 64 + (b1 - 128)), r2) else none
      | none => none
    else if 224 ≤ b && b ≤ 239 then
      match readHexByte r1 with
      | some (b1, r2) =>
        match readHexByte r2 with
        | some (b2, r3) =>
          let cp := (b - 224) * 4096 + (b1 - 128) * 64 + (b2 - 128)
          if isContByte b1 && isContByte b2 && decide (2048 ≤ cp)
              && !(55296 ≤ cp && cp ≤ 57343) then
            some (Char.ofNat cp, r3)
          else none
        | none => none
      | none => none
    else if 240 ≤ b && b ≤ 244 then
      match readHexByte r1 with
      | some (b1, r2) =>
        match readHexByte r2 with
        | some (b2, r3) =>
          match readHexByte r3 with
          | some (b3, r4) =>
            let cp := (b - 240) * 262144 + (b1 - 128) * 4096 + (b2 - 128) * 64 + (b3 - 128)
            if isContByte b1 && isContByte b2 && isContByte b3
                && decide (65536 ≤ cp) && decide (cp ≤ 1114111) then
              some (Char.ofNat cp, r4)
            else none
          | none => none
        | none => none
      | none => none
    else none

/-- Fuelled worker for `decodeURIComponent`; the fuel is the input length,
which suffices because every step consumes at least one character. -/
def decodeURIAux : Nat → List Char → Option (List Char)
  | _, [] => some []
  | 0, _ :: _ => none
  | fuel + 1, c :: rest =>
    if c == '%' then
      match decodeSeq (c :: rest) with
      | some (ch, r) => (decodeURIAux fuel r).map (ch :: ·)
      | none => none
    else (decodeURIAux fuel rest).map (c :: ·)

/-- Model of the JS builtin `decodeURIComponent`; `none` models a thrown
`URIError`. -/
def decodeURIComponent (s : String) : Option String :=
  (decodeURIAux s.data.length s.data).map String.mk

/-! ### Percent-encoding (used by the URL serializer and encodeURIComponent) -/

/-- Uppercase hex digit for `n < 16`. -/
def hexCh (n : Nat) : Char := if n < 10 then Char.ofNat (48 + n) else Char.ofNat (55 + n)

def utf8Bytes (c : Char) : List Nat :=
  if c.toNat < 128 then [c.toNat]
  else if c.toNat < 2048 then [192 + c.toNat / 64, 128 + c.toNat % 64]
  else if c.toNat < 65536 then
    [224 + c.toNat / 4096, 128 + (c.toNat / 64) % 64, 128 + c.toNat % 64]
  else
    [240 + c.toNat / 262144, 128 + (c.toNat / 4096) % 64, 128 + (c.toNat / 64) % 64,
      128 + c.toNat % 64]

def encByte (b : Nat) : List Char := ['%', hexCh (b / 16), hexCh (b % 16)]

/-- Percent-encode every character in the given set as its UTF-8 `%HH` bytes. -/
def percentEnc (inSet : Char → Bool) : List Char → List Char
  | [] => []
  | c :: rest =>
    (if inSet c then ((utf8Bytes c).map encByte).flatten else [c]) ++ percentEnc inSet rest

/-- WHATWG path percent-encode set (C0 controls, space, non-ASCII and DEL,
double quote, angle brackets, backtick, braces, and the terminators). -/
def inPathEncSet (c : Char) : Bool :=
  c.toNat ≤ 32 || 126 < c.toNat || c.toNat = 34 || c == '<' || c == '>'
  || c.toNat = 96 || c.toNat = 123 || c.toNat = 125 || c == '#' || c == '?'

/-- WHATWG special-query percent-encode set. -/
def inQueryEncSet (c : Char) : Bool :=
  c.toNat ≤ 32 || 126 < c.toNat || c.toNat = 34 || c == '#' || c == '<' || c == '>'
  || c.toNat = 39

/-- WHATWG fragment percent-encode set. -/
def inFragEncSet (c : Char) : Bool :=
  c.toNat ≤ 32 || 126 < c.toNat || c.toNat = 34 || c == '<' || c == '>' || c.toNat = 96

/-- WHATWG userinfo percent-encode set (modulo the `:` separating user and
password, which this model keeps verbatim inside the single userinfo field). -/
def inUserinfoEncSet (c : Char) : Bool :=
  inPathEncSet c || c == '/' || c.toNat = 59 || c == '=' || c == '@'
  || c == '[' || c == '\\' || c == ']' || c.toNat = 94 || c.toNat = 124

/-- Characters kept verbatim by the JS builtin `encodeURIComponent`. -/
def isUnreservedURI (c : Char) : Bool :=
  isAlphaCh c || isDigitCh c || c == '-' || c == '_' || c == '.'
  || c.toNat = 33 || c.toNat = 126 || c.toNat = 42 || c.toNat = 39
  || c.toNat = 40 || c.toNat = 41

/-- Model of the JS builtin `encodeURIComponent`. -/
def encodeURIComponent (s : String) : String :=
  String.mk (percentEnc (fun c => !isUnreservedURI c) s.data)

/-! ### URL parsing (subset of WHATWG `new URL`) -/

/-- WHATWG forbidden host code points (plus `%`: percent-escapes in hosts are
outside the modelled subset and are rejected). -/
def forbiddenHost (c : Char) : Bool :=
  c.toNat ≤ 32 || c.toNat = 127 || c == '#' || c == '%' || c == '/' || c == ':'
  || c == '<' || c == '>' || c == '?' || c == '@' || c == '[' || c == '\\'
  || c == ']' || c.toNat = 94 || c.toNat = 124

/-- Characters that terminate the authority section. -/
def isAuthEnd (c : Char) : Bool := c == '/' || c == '\\' || c == '?' || c == '#'

/-- Longest prefix whose characters all fail `p`, together with the rest. -/
def spanNot (p : Char → Bool) : List Char → List Char × List Char
  | [] => ([], [])
  | c :: rest =>
    if p c then ([], c :: rest)
    else
      let r := spanNot p rest
      (c :: r.1, r.2)

/-- Split at the first occurrence of `x` (dropping it); `none` if absent. -/
def splitAtCh (x : Char) : List Char → List Char × Option (List Char)
  | [] => ([], none)
  | c :: rest =>
    if c == x then ([], some rest)
    else
      let r := splitAtCh x rest
      (c :: r.1, r.2)

/-- Split at the last occurrence of `x` (dropping it); `none` if absent. -/
def splitAtLastCh (x : Char) (l : List Char) : Option (List Char × List Char) :=
  match splitAtCh x l.reverse with
  | (_, none) => none
  | (a, some b) => some (b.reverse, a.reverse)

/-- WHATWG input preprocessing: trim leading/trailing C0 controls and spaces,
then remove all tabs and newlines. -/
def preClean (l : List Char) : List Char :=
  let t := ((l.dropWhile (fun c => c.toNat ≤ 32)).reverse.dropWhile
    (fun c => c.toNat ≤ 32)).reverse
  t.filter (fun c => !(c.toNat = 9 || c.toNat = 10 || c.toNat = 13))

def splitSchemeAux : List Char → List Char → Option (List Char × List Char)
  | [], _ => none
  | c :: rest, acc =>
    if c == ':' then some (acc.reverse, rest)
    else if isSchemeChar c then splitSchemeAux rest (c :: acc)
    else none

/-- Extract `scheme ":"` from the head of the input: a letter followed by
scheme characters, then a colon. -/
def splitScheme : List Char → Option (List Char × List Char)
  | [] => none
  | c :: rest => if isAlphaCh c then splitSchemeAux rest [c] else none

def digitsVal (l : List Char) : Nat := l.foldl (fun a c => 10 * a + (c.toNat - 48)) 0

def isDefaultPort (scheme : String) (p : List Char) : Bool :=
  (scheme == "http" && digitsVal p == 80) || (scheme == "https" && digitsVal p == 443)

/-- Parsed URL record: either a special (http/https) URL, or an opaque-path
URL `scheme:rest` for every other scheme. -/
inductive URLRec where
  | special (scheme : String) (userinfo : Option String) (host : String)
      (port : Option String) (path : String) (query : Option String)
      (fragment : Option String)
  | nonspecial (scheme : String) (rest : String)
deriving DecidableEq

def URLRec.schemeOf : URLRec → String
  | .special s _ _ _ _ _ _ => s
  | .nonspecial s _ => s

/-- Validate the port section: `none` on failure, `some none` for an absent,
empty, or scheme-default port, `some (some digits)` otherwise. -/
def parsePort (scheme : String) : Option (List Char) → Option (Option (List Char))
  | none => some none
  | some pcs =>
    if pcs = [] then some none
    else if pcs.all isDigitCh then
      if digitsVal pcs ≤ 65535 then
        if isDefaultPort scheme pcs then some none else some (some pcs)
      else none
    else none

/-- Split everything after the authority into serialized path, query and
fragment (backslashes become slashes, an empty path becomes `/`, and each
component is percent-encoded with its WHATWG set). -/
def parsePathQF (rest : List Char) : String × Option String × Option String :=
  let bh := splitAtCh '#' rest
  let pq := splitAtCh '?' bh.1
  let path0 := pq.1.map (fun c => if c == '\\' then '/' else c)
  let path1 := if path0 = [] then ['/'] else path0
  (String.mk (percentEnc inPathEncSet path1),
    (pq.2).map (fun q => String.mk (percentEnc inQueryEncSet q)),
    (bh.2).map (fun f => String.mk (percentEnc inFragEncSet f)))

/-- Parse the host/port section and assemble the record. -/
def parseHostPort (scheme : String) (ui : Option (List Char))
    (hostport rest : List Char) : Option URLRec :=
  let hp := splitAtCh ':' hostport
  let host := hp.1.map lowerCh
  if host = [] || host.any forbiddenHost then none
  else
    match parsePort scheme hp.2 with
    | none => none
    | some port =>
      let pqf := parsePathQF rest
      some (.special scheme (ui.map (fun u => String.mk (percentEnc inUserinfoEncSet u)))
        (String.mk host) (port.map String.mk) pqf.1 pqf.2.1 pqf.2.2)

/-- Parse the part after `scheme:` of an http/https URL. -/
def parseSpecialRest (scheme : String) (afterColon : List Char) : Option URLRec :=
  let body := afterColon.dropWhile (fun c => c == '/' || c == '\\')
  let sp := spanNot isAuthEnd body
  if sp.1 = [] then none
  else
    match splitAtLastCh '@' sp.1 with
    | none => parseHostPort scheme none sp.1 sp.2
    | some (u, hp) => parseHostPort scheme (if u = [] then none else some u) hp sp.2

/-- Model of the WHATWG URL parser (`new URL(s)`); `none` models a thrown
`TypeError`. -/
def parseURL (s : String) : Option URLRec :=
  let cs := preClean s.data
  match splitScheme cs with
  | none => none
  | some (sch, rest) =>
    let scheme := String.mk (sch.map lowerCh)
    if scheme == "http" || scheme == "https" then parseSpecialRest scheme rest
    else some (.nonspecial scheme (String.mk rest))

/-- Model of `URL#toString` / `URL#href`. -/
def serializeURL : URLRec → String
  | .special scheme ui host port path q f =>
    scheme ++ "://"
      ++ (match ui with | some u => u ++ "@" | none => "")
      ++ host
      ++ (match port with | some p => ":" ++ p | none => "")
      ++ path
      ++ (match q with | some qs => "?" ++ qs | none => "")
      ++ (match f with | some fs => "#" ++ fs | none => "")
  | .nonspecial scheme rest => scheme ++ ":" ++ rest

/-- Model of `new URL(s).hostname` (empty for opaque-path URLs). -/
def hostnameOf (s : String) : Option String :=
  match parseURL s with
  | some (.special _ _ h _ _ _ _) => some h
  | some (.nonspecial _ _) => some ""
  | none => none

/-! ### normalizeDest (api/r.js lines 10-25) -/

def normalizeDest (raw : String) : Option String :=
  if raw = "" then none
  else
    let r1 := (decodeURIComponent raw).getD raw
    let r2 := if hasScheme r1 then r1 else "https://" ++ r1
    match parseURL r2 with
    | some u =>
      if URLRec.schemeOf u == "http" || URLRec.schemeOf u == "https" then
        some (serializeURL u)
      else none
    | none => none

/-! ### The handler (api/r.js lines 27-100) -/

/-- JS `String#trim` whitespace (ASCII whitespace, NBSP, BOM). -/
def isJsWs (c : Char) : Bool :=
  c.toNat = 32 || c.toNat = 9 || c.toNat = 10 || c.toNat = 13 || c.toNat = 11
  || c.toNat = 12 || c.toNat = 160 || c.toNat = 65279

def trimL (l : List Char) : List Char :=
  ((l.dropWhile isJsWs).reverse.dropWhile isJsWs).reverse

/-- Model of JS `String#trim`. -/
def trimS (s : String) : String := String.mk (trimL s.data)

/-- Fuelled worker for `String#split(',')`. -/
def splitComAux : Nat → List Char → List (List Char)
  | 0, l => [l]
  | fuel + 1, l =>
    match splitAtCh ',' l with
    | (a, none) => [a]
    | (a, some r) => a :: splitComAux fuel r

/-- Model of JS `allowed.split(',')`. -/
def splitCom (l : List Char) : List (List Char) := splitComAux l.length l

/-- `pre` is a prefix of `l`. -/
def leadsWith : List Char → List Char → Bool
  | [], _ => true
  | _ :: _, [] => false
  | a :: as, b :: bs => a == b && leadsWith as bs

/-- Model of JS `s.endsWith(suf)`. -/
def endsWithS (s suf : String) : Bool := leadsWith suf.data.reverse s.data.reverse

/-- Model of `allowed.split(',').map(s => s.trim()).filter(Boolean)`. -/
def allowedList (allowed : String) : List String :=
  ((splitCom allowed.data).map (fun e => String.mk (trimL e))).filter (fun e => e ≠ "")

/-- Model of the callback `a => host === a || host.endsWith('.' + a)`. -/
def hostMatches (host a : String) : Bool := host == a || endsWithS host ("." ++ a)

/-- Model of `allowedList.some(a => ...)` (the `ok` constant in the source). -/
def hostAllowed (allowed host : String) : Bool :=
  (allowedList allowed).any (fun a => hostMatches host a)

/-- Process environment at request time. -/
structure Env where
  ALLOWED_DOMAINS : Option String
  TRACKER_URL : Option String
deriving DecidableEq

/-- Query parameters of the inbound request (absent models `undefined`). -/
structure Req where
  rid : Option String
  dest : Option String
deriving DecidableEq

/-- Outcome of the outbound tracker fetch; the handler awaits the call but
discards the outcome, so the response never depends on it. -/
inductive TrackerOutcome where
  | ok
  | httpError (code : Nat)
  | netError
  | timedOut
deriving DecidableEq

/-- The emitted HTTP response. -/
structure Response where
  status : Nat
  contentType : String
  location : Option String
  body : String
deriving DecidableEq

def missingResp : Response :=
  ⟨400, "text/plain; charset=utf-8", none, "Missing dest parameter"⟩

def invalidResp : Response :=
  ⟨400, "text/plain; charset=utf-8", none, "Invalid dest URL"⟩

def forbiddenResp : Response :=
  ⟨403, "text/plain; charset=utf-8", none, "Destination domain not allowed"⟩

def serverErrorResp : Response :=
  ⟨500, "text/plain; charset=utf-8", none, "Server error"⟩

def redirectResp (dest : String) : Response :=
  ⟨302, "text/html; charset=utf-8", some dest,
    "<html><body>Redirecting… If you are not redirected automatically, <a href=\""
      ++ dest ++ "\">click here</a>.</body></html>"⟩

/-- The outbound tracker request URL (api/r.js lines 69-72). -/
def trackerUrlOf (trackerBase rid dest : String) : String :=
  trackerBase ++ (if trackerBase.data.contains '?' then "&" else "?")
    ++ "action=track&rid=" ++ encodeURIComponent rid
    ++ "&dest=" ++ encodeURIComponent dest

/-- The success tail of the handler: best-effort tracker attempt, then the
302 redirect.  Returns the response and the attempted tracker request. -/
def handleOk (env : Env) (rid dest : String) : Response × Option String :=
  let trackerBase := env.TRACKER_URL.getD ""
  let attempt := if trackerBase ≠ "" then some (trackerUrlOf trackerBase rid dest) else none
  (redirectResp dest, attempt)

/-- The request handler (`module.exports`).  The `TrackerOutcome` argument is
the result of the awaited tracker fetch; the source discards it
(`.catch(() => {})` inside a swallowing `try`), so it is unused here. -/
def handler (env : Env) (req : Req) (_tr : TrackerOutcome) : Response × Option String :=
  match req.dest with
  | none => (missingResp, none)
  | some rawDest =>
    if rawDest = "" then (missingResp, none)
    else
      match normalizeDest rawDest with
      | none => (invalidResp, none)
      | some dest =>
        let allowed := env.ALLOWED_DOMAINS.getD ""
        if trimS allowed ≠ "" then
          match hostnameOf dest with
          | none => (serverErrorResp, none)
          | some host =>
            if hostAllowed allowed host then handleOk env (req.rid.getD "") dest
            else (forbiddenResp, none)
        else handleOk env (req.rid.getD "") dest

/-- Well-formedness invariant satisfied by every URL record the parser
produces for an http/https input; it is exactly what makes the serializer
a right inverse of the parser. -/
def wfURL : URLRec → Prop
  | .special scheme ui host port path q f =>
    (scheme = "http" ∨ scheme = "https") ∧
    (∀ u, ui = some u → u.data ≠ [] ∧ ∀ c ∈ u.data, inUserinfoEncSet c = false) ∧
    host.data ≠ [] ∧ (∀ c ∈ host.data, forbiddenHost c = false ∧ isAsciiUpper c = false) ∧
    (∀ p, port = some p → p.data ≠ [] ∧ (∀ c ∈ p.data, isDigitCh c = true) ∧
      digitsVal p.data ≤ 65535 ∧ isDefaultPort scheme p.data = false) ∧
    path.data ≠ [] ∧ path.data.head? = some '/' ∧
    (∀ c ∈ path.data, inPathEncSet c = false ∧ c ≠ '\\') ∧
    (∀ qs, q = some qs → ∀ c ∈ qs.data, inQueryEncSet c = false) ∧
    (∀ fs, f = some fs → ∀ c ∈ fs.data, inFragEncSet c = false)
  | .nonspecial _ _ => False

/-- Serialized userinfo section (with trailing `@`), empty when absent. -/
def uiHead : Option String → List Char
  | some u0 => u0.data ++ ['@']
  | none => []

/-- Serialized port section (with leading `:`), empty when absent. -/
def portTail : Option String → List Char
  | some p => ':' :: p.data
  | none => []

/-- Serialized query section (with leading `?`), empty when absent. -/
def qTail : Option String → List Char
  | some qs => '?' :: qs.data
  | none => []

/-- Serialized fragment section (with leading `#`), empty when absent. -/
def fTail : Option String → List Char
  | some fs => '#' :: fs.data
  | none => []

/-- The port digits as a character list, when present. -/
def portData : Option String → Option (List Char)
  | some p => some p.data
  | none => none

/-! ### String and character lemmas -/

theorem mk_data (s : String) : String.mk s.data = s := by cases s; rfl

theorem data_ne_nil {s : String} (h : s.data ≠ []) : s ≠ "" := by
  intro he
  subst he
  exact h rfl

theorem char_lt (c : Char) : c.toNat < 1114112 := by
  have h := c.valid
  unfold UInt32.isValidChar Nat.isValidChar at h
  have he : c.toNat = c.val.toNat := rfl
  rcases h with h | ⟨h1, h2⟩ <;> omega

theorem char_toNat_ofNat {n : Nat} (h : n.isValidChar) : (Char.ofNat n).toNat = n := by
  rw [Char.ofNat, dif_pos h]
  rfl

theorem lowerCh_not_upper (c : Char) : isAsciiUpper (lowerCh c) = false := by
  unfold lowerCh
  by_cases hup : isAsciiUpper c = true
  · have hb : 65 ≤ c.toNat ∧ c.toNat ≤ 90 := by
      simpa [isAsciiUpper] using hup
    have hv : (c.toNat + 32).isValidChar := Or.inl (by omega)
    rw [if_pos hup]
    simp [isAsciiUpper, char_toNat_ofNat hv]
    omega
  · rw [if_neg hup]
    exact Bool.eq_false_iff.mpr hup

theorem lowerCh_id {c : Char} (h : isAsciiUpper c = false) : lowerCh c = c := by
  simp [lowerCh, h]

theorem pathSet_facts {c : Char} (h : inPathEncSet c = false) :
    32 < c.toNat ∧ c ≠ '?' ∧ c ≠ '#' := by
  refine ⟨?_, ?_, ?_⟩
  · by_contra h32
    have ht : (decide (c.toNat ≤ 32)) = true := decide_eq_true (by omega)
    have hT : inPathEncSet c = true := by unfold inPathEncSet; simp [ht]
    simp [hT] at h
  all_goals intro hc; subst hc; exact absurd h (by decide)

theorem querySet_facts {c : Char} (h : inQueryEncSet c = false) :
    32 < c.toNat ∧ c ≠ '#' := by
  refine ⟨?_, ?_⟩
  · by_contra h32
    have ht : (decide (c.toNat ≤ 32)) = true := decide_eq_true (by omega)
    have hT : inQueryEncSet c = true := by unfold inQueryEncSet; simp [ht]
    simp [hT] at h
  all_goals intro hc; subst hc; exact absurd h (by decide)

theorem fragSet_facts {c : Char} (h : inFragEncSet c = false) : 32 < c.toNat := by
  by_contra h32
  have ht : (decide (c.toNat ≤ 32)) = true := decide_eq_true (by omega)
  have hT : inFragEncSet c = true := by unfold inFragEncSet; simp [ht]
  simp [hT] at h

theorem uiSet_pathSet {c : Char} (h : inUserinfoEncSet c = false) :
    inPathEncSet c = false := by
  cases hq : inPathEncSet c
  · rfl
  · have hT : inUserinfoEncSet c = true := by unfold inUserinfoEncSet; simp [hq]
    simp [hT] at h

theorem uiSet_facts {c : Char} (h : inUserinfoEncSet c = false) :
    32 < c.toNat ∧ c ≠ '/' ∧ c ≠ '\\' ∧ c ≠ '?' ∧ c ≠ '#' ∧ c ≠ '@' := by
  obtain ⟨h32, hq, hh⟩ := pathSet_facts (uiSet_pathSet h)
  refine ⟨h32, ?_, ?_, hq, hh, ?_⟩
  all_goals intro hc; subst hc; exact absurd h (by decide)

theorem forbidden_facts {c : Char} (h : forbiddenHost c = false) :
    32 < c.toNat ∧ c ≠ '/' ∧ c ≠ '\\' ∧ c ≠ '?' ∧ c ≠ '#' ∧ c ≠ ':' ∧ c ≠ '@' := by
  refine ⟨?_, ?_, ?_, ?_, ?_, ?_, ?_⟩
  · by_contra h32
    have ht : (decide (c.toNat ≤ 32)) = true := decide_eq_true (by omega)
    have hT : forbiddenHost c = true := by unfold forbiddenHost; simp [ht]
    simp [hT] at h
  all_goals intro hc; subst hc; exact absurd h (by decide)

theorem digit_facts {c : Char} (h : isDigitCh c = true) :
    32 < c.toNat ∧ c ≠ '/' ∧ c ≠ '\\' ∧ c ≠ '?' ∧ c ≠ '#' ∧ c ≠ ':' ∧ c ≠ '@' := by
  have hb : 48 ≤ c.toNat ∧ c.toNat ≤ 57 := by simpa [isDigitCh] using h
  refine ⟨by omega, ?_, ?_, ?_, ?_, ?_, ?_⟩
  all_goals intro hc; subst hc; exact absurd hb (by decide)


/-! ### Generic list lemmas -/

theorem mapSelf {l : List Char} {f : Char → Char} (h : ∀ c ∈ l, f c = c) :
    l.map f = l := by
  induction l with
  | nil => rfl
  | cons c t ih => simp [h c (by simp), ih (fun x hx => h x (by simp [hx]))]

theorem dropWhile_cons_false {p : Char → Bool} {c : Char} {l : List Char}
    (h : p c = false) : List.dropWhile p (c :: l) = c :: l := by
  simp [List.dropWhile, h]

theorem dropWhile_all_false {p : Char → Bool} {l : List Char}
    (h : ∀ c ∈ l, p c = false) : List.dropWhile p l = l := by
  cases l with
  | nil => rfl
  | cons c t => exact dropWhile_cons_false (h c (by simp))

theorem preClean_id {l : List Char} (h : ∀ c ∈ l, 32 < c.toNat) : preClean l = l := by
  unfold preClean
  have hp : ∀ c ∈ l, (decide (c.toNat ≤ 32)) = false :=
    fun c hc => decide_eq_false_iff_not.mpr (by have := h c hc; omega)
  rw [dropWhile_all_false hp, dropWhile_all_false (fun c hc => hp c (by simpa using hc)),
    List.reverse_reverse]
  refine List.filter_eq_self.mpr (fun c hc => ?_)
  have := h c hc
  simp only [Bool.not_eq_true', Bool.or_eq_false_iff, decide_eq_false_iff_not]
  omega

/-! ### spanNot, splitAtCh, splitAtLastCh lemmas -/

theorem spanNot_all_false {p : Char → Bool} {a : List Char}
    (ha : ∀ c ∈ a, p c = false) : spanNot p a = (a, []) := by
  induction a with
  | nil => rfl
  | cons c t ih =>
    simp [spanNot, ha c (by simp), ih (fun x hx => ha x (by simp [hx]))]

theorem spanNot_append {p : Char → Bool} {a b : List Char} {x : Char}
    (ha : ∀ c ∈ a, p c = false) (hx : p x = true) :
    spanNot p (a ++ x :: b) = (a, x :: b) := by
  induction a with
  | nil => simp [spanNot, hx]
  | cons c t ih =>
    simp [spanNot, ha c (by simp), ih (fun y hy => ha y (by simp [hy]))]

theorem splitAtCh_not_mem {x : Char} {l : List Char} (h : x ∉ l) :
    splitAtCh x l = (l, none) := by
  induction l with
  | nil => rfl
  | cons c t ih =>
    have hne : (c == x) = false := by
      simp only [beq_eq_false_iff_ne, ne_eq]
      intro hc
      exact h (by simp [hc])
    simp [splitAtCh, hne, ih (fun hm => h (by simp [hm]))]

theorem splitAtCh_append {x : Char} {a b : List Char} (h : x ∉ a) :
    splitAtCh x (a ++ x :: b) = (a, some b) := by
  induction a with
  | nil => simp [splitAtCh]
  | cons c t ih =>
    have hne : (c == x) = false := by
      simp only [beq_eq_false_iff_ne, ne_eq]
      intro hc
      exact h (by simp [hc])
    simp [splitAtCh, hne, ih (fun hm => h (by simp [hm]))]

theorem splitAtCh_cons (x c : Char) (t : List Char) :
    splitAtCh x (c :: t) = if c == x then ([], some t)
      else (c :: (splitAtCh x t).1, (splitAtCh x t).2) := rfl

theorem splitAtCh_none_eq {x : Char} {l a : List Char}
    (h : splitAtCh x l = (a, none)) : a = l ∧ x ∉ l := by
  induction l generalizing a with
  | nil =>
    simp [splitAtCh] at h
    subst h
    exact ⟨rfl, by simp⟩
  | cons c t ih =>
    rw [splitAtCh_cons] at h
    by_cases hc : (c == x) = true
    · rw [if_pos hc] at h
      simp at h
    · rw [if_neg hc] at h
      rcases hsp : splitAtCh x t with ⟨a1, r1⟩
      rw [hsp] at h
      simp only [Prod.mk.injEq] at h
      obtain ⟨ha, hr⟩ := h
      subst hr
      obtain ⟨ha1, hxt⟩ := ih hsp
      subst ha1
      refine ⟨ha.symm, ?_⟩
      simp only [List.mem_cons]
      rintro (hx | hx)
      · exact absurd (beq_iff_eq.mpr hx.symm) (by simpa using hc)
      · exact hxt hx

theorem splitAtCh_some_eq {x : Char} {l a b : List Char}
    (h : splitAtCh x l = (a, some b)) : l = a ++ x :: b ∧ x ∉ a := by
  induction l generalizing a b with
  | nil => simp [splitAtCh] at h
  | cons c t ih =>
    rw [splitAtCh_cons] at h
    by_cases hc : (c == x) = true
    · rw [if_pos hc] at h
      have hcx : c = x := beq_iff_eq.mp hc
      simp only [Prod.mk.injEq, Option.some.injEq] at h
      obtain ⟨ha, hb⟩ := h
      subst hcx
      subst hb
      rw [← ha]
      exact ⟨rfl, by simp⟩
    · rw [if_neg hc] at h
      rcases hsp : splitAtCh x t with ⟨a1, r1⟩
      rw [hsp] at h
      simp only [Prod.mk.injEq] at h
      obtain ⟨ha, hr⟩ := h
      subst hr
      obtain ⟨hteq, hxa⟩ := ih hsp
      subst hteq
      rw [← ha]
      refine ⟨rfl, ?_⟩
      simp only [List.mem_cons]
      rintro (hx | hx)
      · exact absurd (beq_iff_eq.mpr hx.symm) (by simpa using hc)
      · exact hxa hx

theorem splitAtLastCh_append {x : Char} {u hp : List Char} (h : x ∉ hp) :
    splitAtLastCh x (u ++ x :: hp) = some (u, hp) := by
  unfold splitAtLastCh
  have hrev : (u ++ x :: hp).reverse = hp.reverse ++ x :: u.reverse := by simp
  rw [hrev, splitAtCh_append (by simpa using h)]
  simp

theorem splitAtLastCh_not_mem {x : Char} {l : List Char} (h : x ∉ l) :
    splitAtLastCh x l = none := by
  unfold splitAtLastCh
  rw [splitAtCh_not_mem (by simpa using h)]

theorem splitAtLastCh_sound {x : Char} {l u hp : List Char}
    (h : splitAtLastCh x l = some (u, hp)) : l = u ++ x :: hp ∧ x ∉ hp := by
  unfold splitAtLastCh at h
  rcases hsp : splitAtCh x l.reverse with ⟨a, r⟩
  rw [hsp] at h
  cases r with
  | none => simp at h
  | some b =>
    simp only [Option.some.injEq, Prod.mk.injEq] at h
    obtain ⟨hu, hhp⟩ := h
    obtain ⟨hrev, hxa⟩ := splitAtCh_some_eq hsp
    have hl : l = b.reverse ++ x :: a.reverse := by
      have := congrArg List.reverse hrev
      simpa using this
    subst hu
    subst hhp
    exact ⟨hl, by simpa using hxa⟩

/-! ### leadsWith lemmas -/

theorem leadsWith_append (a b : List Char) : leadsWith a (a ++ b) = true := by
  induction a with
  | nil => rfl
  | cons c t ih => simp [leadsWith, ih]

theorem leadsWith_sub {a l : List Char} (h : leadsWith a l = true) :
    ∀ c ∈ a, c ∈ l := by
  induction a generalizing l with
  | nil => simp
  | cons c t ih =>
    cases l with
    | nil => simp [leadsWith] at h
    | cons c1 l1 =>
      simp only [leadsWith, Bool.and_eq_true, beq_iff_eq] at h
      obtain ⟨rfl, hlw⟩ := h
      intro d hd
      rcases List.mem_cons.mp hd with rfl | hd
      · simp
      · simp [ih hlw d hd]

/-! ### percentEnc lemmas -/

theorem utf8Bytes_shape (c : Char) : ∃ b bs, utf8Bytes c = b :: bs := by
  unfold utf8Bytes
  repeat' split
  all_goals exact ⟨_, _, rfl⟩

theorem utf8Bytes_lt (c : Char) : ∀ b ∈ utf8Bytes c, b < 256 := by
  intro b hb
  have hc := char_lt c
  simp only [utf8Bytes] at hb
  repeat' split at hb
  all_goals simp at hb
  all_goals first
    | (rcases hb with rfl | rfl | rfl | rfl <;> omega)
    | (rcases hb with rfl | rfl | rfl <;> omega)
    | (rcases hb with rfl | rfl <;> omega)
    | (subst hb; omega)

theorem percentEnc_of_not {inSet : Char → Bool} {l : List Char}
    (h : ∀ c ∈ l, inSet c = false) : percentEnc inSet l = l := by
  induction l with
  | nil => rfl
  | cons c t ih =>
    simp [percentEnc, h c (by simp), ih (fun x hx => h x (by simp [hx]))]

theorem percentEnc_cons_false {inSet : Char → Bool} {c : Char} {t : List Char}
    (h : inSet c = false) : percentEnc inSet (c :: t) = c :: percentEnc inSet t := by
  simp [percentEnc, h]

theorem encByte_cases {b : Nat} (hb : b < 256) :
    ∀ c ∈ encByte b, c = '%' ∨ ∃ n, n < 16 ∧ c = hexCh n := by
  intro c hc
  simp [encByte] at hc
  rcases hc with rfl | rfl | rfl
  · left; rfl
  · right; exact ⟨b / 16, by omega, rfl⟩
  · right; exact ⟨b % 16, by omega, rfl⟩

theorem percentEnc_mem {inSet : Char → Bool} {l : List Char} {c : Char}
    (hc : c ∈ percentEnc inSet l) :
    (c ∈ l ∧ inSet c = false) ∨ c = '%' ∨ ∃ n, n < 16 ∧ c = hexCh n := by
  induction l with
  | nil => simp [percentEnc] at hc
  | cons a t ih =>
    simp only [percentEnc] at hc
    rcases List.mem_append.mp hc with h1 | h2
    · by_cases ha : inSet a = true
      · rw [if_pos ha] at h1
        rcases List.mem_flatten.mp h1 with ⟨eb, heb, hceb⟩
        rcases List.mem_map.mp heb with ⟨b, hbmem, rfl⟩
        have hb := utf8Bytes_lt a b hbmem
        right
        exact encByte_cases hb c hceb
      · rw [if_neg ha] at h1
        simp only [List.mem_singleton] at h1
        subst h1
        left
        exact ⟨by simp, Bool.eq_false_iff.mpr ha⟩
    · rcases ih h2 with ⟨hm, hs⟩ | h
      · left; exact ⟨by simp [hm], hs⟩
      · right; exact h

theorem percentEnc_all_not {inSet : Char → Bool} {l : List Char}
    (hPct : inSet '%' = false) (hHex : ∀ n, n < 16 → inSet (hexCh n) = false) :
    ∀ c ∈ percentEnc inSet l, inSet c = false := by
  intro c hc
  rcases percentEnc_mem hc with ⟨_, hs⟩ | rfl | ⟨n, hn, rfl⟩
  · exact hs
  · exact hPct
  · exact hHex n hn

theorem percentEnc_ne_nil {inSet : Char → Bool} {l : List Char} (h : l ≠ []) :
    percentEnc inSet l ≠ [] := by
  cases l with
  | nil => exact absurd rfl h
  | cons a t =>
    simp only [percentEnc]
    intro he
    by_cases ha : inSet a = true
    · rw [if_pos ha] at he
      obtain ⟨b, bs, hshape⟩ := utf8Bytes_shape a
      rw [hshape] at he
      simp [encByte] at he
    · rw [if_neg ha] at he
      simp at he

/-! ### decodeURIComponent lemmas -/

theorem decodeURIAux_id {l : List Char} (h : ∀ c ∈ l, c ≠ '%') :
    decodeURIAux l.length l = some l := by
  induction l with
  | nil => rfl
  | cons c t ih =>
    have hc : (c == '%') = false := by simpa using h c (by simp)
    show decodeURIAux (t.length + 1) (c :: t) = some (c :: t)
    simp [decodeURIAux, hc, ih (fun x hx => h x (by simp [hx]))]

theorem decodeURIComponent_id {s : String} (h : '%' ∉ s.data) :
    decodeURIComponent s = some s := by
  unfold decodeURIComponent
  rw [decodeURIAux_id (fun c hc he => h (he ▸ hc))]
  simp [mk_data]

/-! ### Scheme recognition lemmas -/

theorem splitScheme_http (r : List Char) :
    splitScheme ('h' :: 't' :: 't' :: 'p' :: ':' :: r) = some (['h', 't', 't', 'p'], r) := rfl

theorem splitScheme_https (r : List Char) :
    splitScheme ('h' :: 't' :: 't' :: 'p' :: 's' :: ':' :: r)
      = some (['h', 't', 't', 'p', 's'], r) := rfl

theorem hasScheme_http {s : String} {r : List Char}
    (h : s.data = 'h' :: 't' :: 't' :: 'p' :: ':' :: '/' :: '/' :: r) :
    hasScheme s = true := by
  unfold hasScheme
  rw [h]
  rfl

theorem hasScheme_https {s : String} {r : List Char}
    (h : s.data = 'h' :: 't' :: 't' :: 'p' :: 's' :: ':' :: '/' :: '/' :: r) :
    hasScheme s = true := by
  unfold hasScheme
  rw [h]
  rfl

/-! ### spanNot structure lemmas -/

theorem spanNot_cons (p : Char → Bool) (c : Char) (t : List Char) :
    spanNot p (c :: t) = if p c then ([], c :: t)
      else (c :: (spanNot p t).1, (spanNot p t).2) := rfl

theorem spanNot_snd_cases {p : Char → Bool} {l : List Char} :
    (spanNot p l).2 = [] ∨ ∃ c t, (spanNot p l).2 = c :: t ∧ p c = true := by
  induction l with
  | nil => left; rfl
  | cons c t ih =>
    rw [spanNot_cons]
    by_cases hc : p c = true
    · right
      exact ⟨c, t, by simp [hc], hc⟩
    · have hcf : p c = false := Bool.eq_false_iff.mpr hc
      simpa [hcf] using ih

/-! ### Parser soundness: parsed URLs are well-formed -/

theorem parsePort_some {scheme : String} {p0 : Option (List Char)}
    {port : Option (List Char)} (h : parsePort scheme p0 = some port) :
    ∀ pcs, port = some pcs → pcs ≠ [] ∧ (∀ c ∈ pcs, isDigitCh c = true) ∧
      digitsVal pcs ≤ 65535 ∧ isDefaultPort scheme pcs = false := by
  intro pcs hpcs
  subst hpcs
  cases p0 with
  | none => simp [parsePort] at h
  | some q =>
    simp only [parsePort] at h
    by_cases h1 : q = []
    · simp [h1] at h
    · rw [if_neg h1] at h
      by_cases h2 : q.all isDigitCh = true
      · rw [if_pos h2] at h
        by_cases h3 : digitsVal q ≤ 65535
        · rw [if_pos h3] at h
          by_cases h4 : isDefaultPort scheme q = true
          · rw [if_pos h4] at h
            simp at h
          · rw [if_neg h4] at h
            simp only [Option.some.injEq] at h
            cases h
            exact ⟨h1, fun c hc => List.all_eq_true.mp h2 c hc, h3, Bool.eq_false_iff.mpr h4⟩
        · rw [if_neg h3] at h
          simp at h
      · rw [if_neg h2] at h
        simp at h

theorem parsePathQF_wf {rest : List Char}
    (hfirst : rest = [] ∨ ∃ c t, rest = c :: t ∧ isAuthEnd c = true) :
    (parsePathQF rest).1.data ≠ [] ∧ (parsePathQF rest).1.data.head? = some '/' ∧
    (∀ c ∈ (parsePathQF rest).1.data, inPathEncSet c = false ∧ c ≠ '\\') ∧
    (∀ qs, (parsePathQF rest).2.1 = some qs → ∀ c ∈ qs.data, inQueryEncSet c = false) ∧
    (∀ fs, (parsePathQF rest).2.2 = some fs → ∀ c ∈ fs.data, inFragEncSet c = false) := by
  have hq : ∀ qs, (parsePathQF rest).2.1 = some qs →
      ∀ c ∈ qs.data, inQueryEncSet c = false := by
    intro qs hqs c hc
    unfold parsePathQF at hqs
    simp only [Option.map_eq_some'] at hqs
    obtain ⟨q0, _, hq0⟩ := hqs
    rw [← hq0] at hc
    exact percentEnc_all_not (by decide) (by decide) c hc
  have hf : ∀ fs, (parsePathQF rest).2.2 = some fs →
      ∀ c ∈ fs.data, inFragEncSet c = false := by
    intro fs hfs c hc
    unfold parsePathQF at hfs
    simp only [Option.map_eq_some'] at hfs
    obtain ⟨f0, _, hf0⟩ := hfs
    rw [← hf0] at hc
    exact percentEnc_all_not (by decide) (by decide) c hc
  have hchars : ∀ c ∈ (parsePathQF rest).1.data, inPathEncSet c = false ∧ c ≠ '\\' := by
    intro c hc
    have hset : inPathEncSet c = false :=
      percentEnc_all_not (by decide) (by decide) c hc
    refine ⟨hset, ?_⟩
    rcases percentEnc_mem hc with ⟨hm, _⟩ | rfl | ⟨n, hn, rfl⟩
    · by_cases hp0 : (splitAtCh '?' (splitAtCh '#' rest).1).1.map
          (fun c => if c == '\\' then '/' else c) = []
      · rw [if_pos hp0] at hm
        simp at hm
        subst hm
        decide
      · rw [if_neg hp0] at hm
        rcases List.mem_map.mp hm with ⟨c0, _, hc0⟩
        intro hb
        subst hb
        by_cases hb0 : (c0 == '\\') = true
        · rw [if_pos hb0] at hc0
          exact absurd hc0 (by decide)
        · rw [if_neg hb0] at hc0
          subst hc0
          simp at hb0
    · decide
    · have hall : ∀ m, m < 16 → hexCh m ≠ '\\' := by decide
      exact hall n hn
  have hpath1 : (if (splitAtCh '?' (splitAtCh '#' rest).1).1.map
      (fun c => if c == '\\' then '/' else c) = [] then ['/']
      else (splitAtCh '?' (splitAtCh '#' rest).1).1.map
        (fun c => if c == '\\' then '/' else c)) ≠ [] := by
    by_cases hp0 : (splitAtCh '?' (splitAtCh '#' rest).1).1.map
        (fun c => if c == '\\' then '/' else c) = []
    · rw [if_pos hp0]
      decide
    · rw [if_neg hp0]
      exact hp0
  have hne : (parsePathQF rest).1.data ≠ [] := percentEnc_ne_nil hpath1
  refine ⟨hne, ?_, hchars, hq, hf⟩
  -- head of the encoded path is '/'
  have hhead : ∀ path1, (path1 = ['/'] ∨ path1.head? = some '/') →
      (percentEnc inPathEncSet path1).head? = some '/' := by
    intro path1 hp1
    rcases hp1 with rfl | hp1
    · decide
    · cases path1 with
      | nil => simp at hp1
      | cons c0 t0 =>
        simp only [List.head?_cons, Option.some.injEq] at hp1
        subst hp1
        rw [percentEnc_cons_false (by decide)]
        rfl
  show (parsePathQF rest).1.data.head? = some '/'
  unfold parsePathQF
  by_cases hp0 : (splitAtCh '?' (splitAtCh '#' rest).1).1.map
      (fun c => if c == '\\' then '/' else c) = []
  · simp only [hp0, if_pos]
    exact hhead ['/'] (Or.inl rfl)
  · simp only [if_neg hp0]
    refine hhead _ (Or.inr ?_)
    -- the first character of the path section is '/' or '\' (mapped to '/')
    rcases hfirst with rfl | ⟨c, t, rfl, hce⟩
    · exact absurd (by rfl) hp0
    · have hcases : c = '/' ∨ c = '\\' ∨ c = '?' ∨ c = '#' := by
        unfold isAuthEnd at hce
        simp only [Bool.or_eq_true, beq_iff_eq] at hce
        tauto
      rcases hcases with rfl | rfl | rfl | rfl
      · rw [splitAtCh_cons '#' '/' t]
        rw [if_neg (by decide)]
        rw [splitAtCh_cons '?' '/' _]
        rw [if_neg (by decide)]
        simp
      · rw [splitAtCh_cons '#' '\\' t]
        rw [if_neg (by decide)]
        rw [splitAtCh_cons '?' '\\' _]
        rw [if_neg (by decide)]
        simp
      · exfalso
        apply hp0
        rw [splitAtCh_cons '#' '?' t]
        rw [if_neg (by decide)]
        rw [splitAtCh_cons '?' '?' _]
        rw [if_pos (by decide)]
        rfl
      · exfalso
        apply hp0
        rw [splitAtCh_cons '#' '#' t]
        rw [if_pos (by decide)]
        rfl

theorem parseHostPort_wf {scheme : String} {ui : Option (List Char)}
    {hostport rest : List Char} {u : URLRec}
    (hsch : scheme = "http" ∨ scheme = "https")
    (hui : ∀ l, ui = some l → l ≠ [])
    (hrest : rest = [] ∨ ∃ c t, rest = c :: t ∧ isAuthEnd c = true)
    (h : parseHostPort scheme ui hostport rest = some u) : wfURL u := by
  unfold parseHostPort at h
  by_cases hc : (decide ((splitAtCh ':' hostport).1.map lowerCh = [])
      || ((splitAtCh ':' hostport).1.map lowerCh).any forbiddenHost) = true
  · rw [if_pos hc] at h
    simp at h
  · rw [if_neg hc] at h
    have hcf := Bool.eq_false_iff.mpr hc
    simp only [Bool.or_eq_false_iff, decide_eq_false_iff_not] at hcf
    obtain ⟨hhostne, hhostforb⟩ := hcf
    rcases hport : parsePort scheme (splitAtCh ':' hostport).2 with _ | port
    · rw [hport] at h
      simp at h
    · rw [hport] at h
      simp only [Option.some.injEq] at h
      subst h
      obtain ⟨hpne, hphead, hpchars, hqchars, hfchars⟩ := parsePathQF_wf hrest
      refine ⟨hsch, ?_, ?_, ?_, ?_, hpne, hphead, hpchars, ?_, ?_⟩
      · intro l hl
        simp only [Option.map_eq_some'] at hl
        obtain ⟨u0, hu0, hmk⟩ := hl
        constructor
        · rw [← hmk]
          exact percentEnc_ne_nil (hui u0 hu0)
        · intro c hc2
          rw [← hmk] at hc2
          exact percentEnc_all_not (by decide) (by decide) c hc2
      · exact hhostne
      · intro c hc2
        have hforb := List.any_eq_false.mp hhostforb
        refine ⟨Bool.eq_false_iff.mpr (hforb c hc2), ?_⟩
        rcases List.mem_map.mp hc2 with ⟨c0, _, hc0⟩
        rw [← hc0]
        exact lowerCh_not_upper c0
      · intro p hp
        simp only [Option.map_eq_some'] at hp
        obtain ⟨pcs, hpcs, hmk⟩ := hp
        obtain ⟨hne, hdig, hval, hdef⟩ := parsePort_some hport pcs hpcs
        rw [← hmk]
        exact ⟨hne, hdig, hval, hdef⟩
      · intro qs hqs
        exact hqchars qs hqs
      · intro fs hfs
        exact hfchars fs hfs

theorem parseSpecialRest_wf {scheme : String} {l : List Char} {u : URLRec}
    (hsch : scheme = "http" ∨ scheme = "https")
    (h : parseSpecialRest scheme l = some u) : wfURL u := by
  unfold parseSpecialRest at h
  by_cases hauth :
      (spanNot isAuthEnd (l.dropWhile (fun c => c == '/' || c == '\\'))).1 = []
  · rw [if_pos hauth] at h
    simp at h
  · rw [if_neg hauth] at h
    have hrest := @spanNot_snd_cases isAuthEnd
      (l.dropWhile (fun c => c == '/' || c == '\\'))
    rcases hsplit : splitAtLastCh '@'
        (spanNot isAuthEnd (l.dropWhile (fun c => c == '/' || c == '\\'))).1
        with _ | ⟨uu, hp⟩
    · rw [hsplit] at h
      exact parseHostPort_wf hsch (by simp) hrest h
    · rw [hsplit] at h
      refine parseHostPort_wf hsch ?_ hrest h
      intro l0 hl0
      by_cases huu : uu = []
      · rw [if_pos huu] at hl0
        simp at hl0
      · rw [if_neg huu] at hl0
        simp only [Option.some.injEq] at hl0
        subst hl0
        exact huu

theorem parseURL_eq (s : String) :
    parseURL s = match splitScheme (preClean s.data) with
      | none => none
      | some (sch, rest) =>
        if String.mk (sch.map lowerCh) == "http" || String.mk (sch.map lowerCh) == "https"
        then parseSpecialRest (String.mk (sch.map lowerCh)) rest
        else some (.nonspecial (String.mk (sch.map lowerCh)) (String.mk rest)) := rfl

theorem parseURL_wf {s : String} {u : URLRec} (h : parseURL s = some u)
    (hs : URLRec.schemeOf u = "http" ∨ URLRec.schemeOf u = "https") : wfURL u := by
  rw [parseURL_eq] at h
  split at h
  · simp at h
  · rename_i sch rest heq
    by_cases hcond : (String.mk (sch.map lowerCh) == "http"
        || String.mk (sch.map lowerCh) == "https") = true
    · rw [if_pos hcond] at h
      have hsch : String.mk (sch.map lowerCh) = "http"
          ∨ String.mk (sch.map lowerCh) = "https" := by
        simpa [beq_iff_eq] using hcond
      exact parseSpecialRest_wf hsch h
    · rw [if_neg hcond] at h
      simp only [Option.some.injEq] at h
      subst h
      have hcf := Bool.eq_false_iff.mpr hcond
      simp only [Bool.or_eq_false_iff, beq_eq_false_iff_ne, ne_eq] at hcf
      rcases hs with hs | hs
      · exact absurd hs (by simpa [URLRec.schemeOf] using hcf.1)
      · exact absurd hs (by simpa [URLRec.schemeOf] using hcf.2)

/-! ### Roundtrip: the serializer is a right inverse of the parser -/

theorem dropWhile_cons_true {p : Char → Bool} {c : Char} {l : List Char}
    (h : p c = true) : List.dropWhile p (c :: l) = List.dropWhile p l := by
  simp [List.dropWhile, h]

theorem authEnd_false_of {c : Char} (h1 : c ≠ '/') (h2 : c ≠ '\\') (h3 : c ≠ '?')
    (h4 : c ≠ '#') : isAuthEnd c = false := by
  simp only [isAuthEnd, Bool.or_eq_false_iff, beq_eq_false_iff_ne, ne_eq]
  exact ⟨⟨⟨h1, h2⟩, h3⟩, h4⟩

theorem parsePathQF_eq (rest : List Char) : parsePathQF rest =
    (String.mk (percentEnc inPathEncSet
      (if ((splitAtCh '?' (splitAtCh '#' rest).1).1.map
          (fun c => if c == '\\' then '/' else c)) = [] then ['/']
        else ((splitAtCh '?' (splitAtCh '#' rest).1).1.map
          (fun c => if c == '\\' then '/' else c)))),
     ((splitAtCh '?' (splitAtCh '#' rest).1).2).map
       (fun q => String.mk (percentEnc inQueryEncSet q)),
     ((splitAtCh '#' rest).2).map
       (fun f => String.mk (percentEnc inFragEncSet f))) := rfl

theorem parsePathQF_round {path : String} {q f : Option String}
    (hpne : path.data ≠ [])
    (hpchars : ∀ c ∈ path.data, inPathEncSet c = false ∧ c ≠ '\\')
    (hq : ∀ qs, q = some qs → ∀ c ∈ qs.data, inQueryEncSet c = false)
    (hf : ∀ fs, f = some fs → ∀ c ∈ fs.data, inFragEncSet c = false) :
    parsePathQF (path.data ++ qTail q ++ fTail f) = (path, q, f) := by
  have hnp : '#' ∉ path.data := fun hm => ((pathSet_facts (hpchars _ hm).1).2.2) rfl
  have hqp : '?' ∉ path.data := fun hm => ((pathSet_facts (hpchars _ hm).1).2.1) rfl
  have hmap : path.data.map (fun c => if c == '\\' then '/' else c) = path.data :=
    mapSelf (fun c hc => by
      have hb : (c == '\\') = false := beq_eq_false_iff_ne.mpr (hpchars c hc).2
      rw [if_neg (by simp [hb])])
  have hencp : percentEnc inPathEncSet path.data = path.data :=
    percentEnc_of_not (fun c hc => (hpchars c hc).1)
  cases f with
  | none =>
    cases q with
    | none =>
      simp only [qTail, fTail]
      have h1 : splitAtCh '#' (path.data ++ [] ++ []) = (path.data, none) := by
        simp only [List.append_nil]
        exact splitAtCh_not_mem hnp
      have h2 : splitAtCh '?' path.data = (path.data, none) := splitAtCh_not_mem hqp
      rw [parsePathQF_eq, h1]
      simp only
      rw [h2]
      simp only
      rw [hmap, if_neg hpne, hencp, mk_data]
      rfl
    | some qs =>
      simp only [qTail, fTail]
      have hnq : '#' ∉ '?' :: qs.data := by
        simp only [List.mem_cons]
        rintro (hx | hx)
        · exact absurd hx.symm (by decide)
        · exact (querySet_facts (hq qs rfl _ hx)).2 rfl
      have h1 : splitAtCh '#' (path.data ++ '?' :: qs.data ++ [])
          = (path.data ++ '?' :: qs.data, none) := by
        simp only [List.append_nil]
        exact splitAtCh_not_mem (by
          simp only [List.mem_append]
          rintro (hx | hx)
          · exact hnp hx
          · exact hnq hx)
      have h2 : splitAtCh '?' (path.data ++ '?' :: qs.data) = (path.data, some qs.data) :=
        splitAtCh_append hqp
      rw [parsePathQF_eq, h1]
      simp only
      rw [h2]
      simp only
      rw [hmap, if_neg hpne, hencp, mk_data]
      simp only [Option.map_some', Option.map_none']
      rw [percentEnc_of_not (hq qs rfl), mk_data]
  | some fs =>
    have hencf : percentEnc inFragEncSet fs.data = fs.data :=
      percentEnc_of_not (hf fs rfl)
    cases q with
    | none =>
      simp only [qTail, fTail]
      have h1 : splitAtCh '#' (path.data ++ [] ++ '#' :: fs.data)
          = (path.data, some fs.data) := by
        simp only [List.append_nil]
        exact splitAtCh_append hnp
      have h2 : splitAtCh '?' path.data = (path.data, none) := splitAtCh_not_mem hqp
      rw [parsePathQF_eq, h1]
      simp only
      rw [h2]
      simp only
      rw [hmap, if_neg hpne, hencp, mk_data]
      simp only [Option.map_some', Option.map_none']
      rw [hencf, mk_data]
    | some qs =>
      simp only [qTail, fTail]
      have hnq : '#' ∉ '?' :: qs.data := by
        simp only [List.mem_cons]
        rintro (hx | hx)
        · exact absurd hx.symm (by decide)
        · exact (querySet_facts (hq qs rfl _ hx)).2 rfl
      have h1 : splitAtCh '#' (path.data ++ '?' :: qs.data ++ '#' :: fs.data)
          = (path.data ++ '?' :: qs.data, some fs.data) :=
        splitAtCh_append (by
          simp only [List.mem_append]
          rintro (hx | hx)
          · exact hnp hx
          · exact hnq hx)
      have h2 : splitAtCh '?' (path.data ++ '?' :: qs.data) = (path.data, some qs.data) :=
        splitAtCh_append hqp
      rw [parsePathQF_eq, h1]
      simp only
      rw [h2]
      simp only
      rw [hmap, if_neg hpne, hencp, mk_data]
      simp only [Option.map_some', Option.map_none']
      rw [percentEnc_of_not (hq qs rfl), mk_data, hencf, mk_data]

theorem parseHostPort_eq (scheme : String) (ui : Option (List Char))
    (hostport rest : List Char) : parseHostPort scheme ui hostport rest =
    if (splitAtCh ':' hostport).1.map lowerCh = []
        || ((splitAtCh ':' hostport).1.map lowerCh).any forbiddenHost then none
    else
      match parsePort scheme (splitAtCh ':' hostport).2 with
      | none => none
      | some port =>
        some (.special scheme (ui.map (fun u => String.mk (percentEnc inUserinfoEncSet u)))
          (String.mk ((splitAtCh ':' hostport).1.map lowerCh)) (port.map String.mk)
          (parsePathQF rest).1 (parsePathQF rest).2.1 (parsePathQF rest).2.2) := rfl

theorem parseHostPort_round {scheme : String} {ui : Option String} {host : String}
    {port : Option String} {path : String} {q f : Option String}
    (hui : ∀ u, ui = some u → u.data ≠ [] ∧ ∀ c ∈ u.data, inUserinfoEncSet c = false)
    (hhne : host.data ≠ [])
    (hhost : ∀ c ∈ host.data, forbiddenHost c = false ∧ isAsciiUpper c = false)
    (hport : ∀ p, port = some p → p.data ≠ [] ∧ (∀ c ∈ p.data, isDigitCh c = true) ∧
      digitsVal p.data ≤ 65535 ∧ isDefaultPort scheme p.data = false)
    (hpne : path.data ≠ [])
    (hpchars : ∀ c ∈ path.data, inPathEncSet c = false ∧ c ≠ '\\')
    (hqc : ∀ qs, q = some qs → ∀ c ∈ qs.data, inQueryEncSet c = false)
    (hfc : ∀ fs, f = some fs → ∀ c ∈ fs.data, inFragEncSet c = false) :
    parseHostPort scheme (ui.map String.data)
      (host.data ++ portTail port)
      (path.data ++ qTail q ++ fTail f)
      = some (.special scheme ui host port path q f) := by
  have hcolon : ':' ∉ host.data :=
    fun hm => ((forbidden_facts (hhost _ hm).1).2.2.2.2.2.1) rfl
  have hmap : host.data.map lowerCh = host.data :=
    mapSelf (fun c hc => lowerCh_id (hhost c hc).2)
  have hcondF : (decide (host.data = []) || host.data.any forbiddenHost) = false := by
    rw [decide_eq_false hhne]
    rw [List.any_eq_false.mpr (fun c hc => by simp [(hhost c hc).1])]
    rfl
  have hsplit : splitAtCh ':' (host.data ++ portTail port)
      = (host.data, portData port) := by
    cases port with
    | none =>
      simp only [portTail, List.append_nil, portData]
      exact splitAtCh_not_mem hcolon
    | some p =>
      simp only [portTail, portData]
      exact splitAtCh_append hcolon
  rw [parseHostPort_eq, hsplit]
  simp only
  rw [hmap]
  rw [if_neg (by simp [hcondF])]
  have hpp : parsePort scheme (portData port) = some (portData port) := by
    cases port with
    | none => rfl
    | some p =>
      obtain ⟨hne, hdig, hval, hdef⟩ := hport p rfl
      simp only [portData, parsePort]
      rw [if_neg hne, if_pos (List.all_eq_true.mpr hdig), if_pos hval,
        if_neg (by simp [hdef])]
  rw [hpp]
  simp only
  rw [parsePathQF_round hpne hpchars hqc hfc]
  have hport2 : (portData port).map String.mk = port := by
    cases port with
    | none => rfl
    | some p => simp [portData, mk_data]
  have hui2 : (ui.map String.data).map
      (fun u => String.mk (percentEnc inUserinfoEncSet u)) = ui := by
    cases ui with
    | none => rfl
    | some u0 =>
      obtain ⟨hu0ne, hu0⟩ := hui u0 rfl
      simp [percentEnc_of_not hu0, mk_data]
  rw [hport2, hui2, mk_data]

theorem parseSpecialRest_eq (scheme : String) (l : List Char) :
    parseSpecialRest scheme l =
    if (spanNot isAuthEnd (l.dropWhile (fun c => c == '/' || c == '\\'))).1 = [] then none
    else
      match splitAtLastCh '@'
          (spanNot isAuthEnd (l.dropWhile (fun c => c == '/' || c == '\\'))).1 with
      | none => parseHostPort scheme none
          (spanNot isAuthEnd (l.dropWhile (fun c => c == '/' || c == '\\'))).1
          (spanNot isAuthEnd (l.dropWhile (fun c => c == '/' || c == '\\'))).2
      | some (u, hp) => parseHostPort scheme (if u = [] then none else some u) hp
          (spanNot isAuthEnd (l.dropWhile (fun c => c == '/' || c == '\\'))).2 := rfl

theorem parseSpecialRest_round {scheme : String} {ui : Option String} {host : String}
    {port : Option String} {path : String} {q f : Option String}
    (hui : ∀ u, ui = some u → u.data ≠ [] ∧ ∀ c ∈ u.data, inUserinfoEncSet c = false)
    (hhne : host.data ≠ [])
    (hhost : ∀ c ∈ host.data, forbiddenHost c = false ∧ isAsciiUpper c = false)
    (hport : ∀ p, port = some p → p.data ≠ [] ∧ (∀ c ∈ p.data, isDigitCh c = true) ∧
      digitsVal p.data ≤ 65535 ∧ isDefaultPort scheme p.data = false)
    (hpne : path.data ≠ []) (hphead : path.data.head? = some '/')
    (hpchars : ∀ c ∈ path.data, inPathEncSet c = false ∧ c ≠ '\\')
    (hqc : ∀ qs, q = some qs → ∀ c ∈ qs.data, inQueryEncSet c = false)
    (hfc : ∀ fs, f = some fs → ∀ c ∈ fs.data, inFragEncSet c = false) :
    parseSpecialRest scheme ('/' :: '/' ::
        (uiHead ui ++ host.data ++ portTail port ++ path.data ++ qTail q ++ fTail f))
      = some (.special scheme ui host port path q f) := by
  obtain ⟨pt, hpt⟩ : ∃ pt, path.data = '/' :: pt := by
    cases hpd : path.data with
    | nil => exact absurd hpd hpne
    | cons c0 t0 =>
      rw [hpd] at hphead
      simp only [List.head?_cons, Option.some.injEq] at hphead
      exact ⟨t0, by rw [hphead]⟩
  -- no character of the authority terminates it
  have hAuthFalse : ∀ c ∈ uiHead ui ++ host.data ++ portTail port, isAuthEnd c = false := by
    intro c hc
    simp only [List.mem_append] at hc
    rcases hc with (hc | hc) | hc
    · cases ui with
      | none => simp [uiHead] at hc
      | some u0 =>
        simp only [uiHead, List.mem_append, List.mem_singleton] at hc
        rcases hc with hc | rfl
        · obtain ⟨_, h1, h2, h3, h4, _⟩ := uiSet_facts ((hui u0 rfl).2 c hc)
          exact authEnd_false_of h1 h2 h3 h4
        · decide
    · obtain ⟨_, h1, h2, h3, h4, _, _⟩ := forbidden_facts (hhost c hc).1
      exact authEnd_false_of h1 h2 h3 h4
    · cases port with
      | none => simp [portTail] at hc
      | some p =>
        simp only [portTail, List.mem_cons] at hc
        rcases hc with rfl | hc
        · decide
        · obtain ⟨_, h1, h2, h3, h4, _, _⟩ := digit_facts ((hport p rfl).2.1 c hc)
          exact authEnd_false_of h1 h2 h3 h4
  -- the authority is nonempty
  have hauthne : uiHead ui ++ host.data ++ portTail port ≠ [] := by
    intro h
    rcases List.append_eq_nil.mp h with ⟨h1, _⟩
    rcases List.append_eq_nil.mp h1 with ⟨_, h3⟩
    exact hhne h3
  -- the leading slashes are consumed and stop at the first authority character
  have hdrop : List.dropWhile (fun c => c == '/' || c == '\\') ('/' :: '/' ::
      (uiHead ui ++ host.data ++ portTail port ++ path.data ++ qTail q ++ fTail f))
      = uiHead ui ++ host.data ++ portTail port ++ path.data ++ qTail q ++ fTail f := by
    rw [dropWhile_cons_true (by decide), dropWhile_cons_true (by decide)]
    obtain ⟨c0, t0, hR, hc0⟩ : ∃ c0 t0,
        uiHead ui ++ host.data ++ portTail port ++ path.data ++ qTail q ++ fTail f
          = c0 :: t0 ∧ ((c0 == '/') || (c0 == '\\')) = false := by
      cases ui with
      | some u0 =>
        obtain ⟨hu0ne, hu0⟩ := hui u0 rfl
        cases hu0d : u0.data with
        | nil => exact absurd hu0d hu0ne
        | cons c0 t0 =>
          refine ⟨c0, t0 ++ '@' :: (host.data ++ portTail port ++ path.data
            ++ qTail q ++ fTail f), ?_, ?_⟩
          · simp [uiHead, hu0d, List.append_assoc]
          · obtain ⟨_, h1, h2, _, _, _⟩ := uiSet_facts (hu0 c0 (by rw [hu0d]; simp))
            simp [h1, h2]
      | none =>
        cases hhd : host.data with
        | nil => exact absurd hhd hhne
        | cons c0 t0 =>
          refine ⟨c0, t0 ++ (portTail port ++ path.data ++ qTail q ++ fTail f), ?_, ?_⟩
          · simp [uiHead, hhd, List.append_assoc]
          · obtain ⟨_, h1, h2, _, _, _, _⟩ := forbidden_facts (hhost c0 (by rw [hhd]; simp)).1
            simp [h1, h2]
    rw [hR]
    rw [dropWhile_cons_false hc0]
  -- the authority span
  have hspanFull : spanNot isAuthEnd
      (uiHead ui ++ host.data ++ portTail port ++ path.data ++ qTail q ++ fTail f)
      = (uiHead ui ++ host.data ++ portTail port,
         path.data ++ qTail q ++ fTail f) := by
    have e1 : uiHead ui ++ host.data ++ portTail port ++ path.data ++ qTail q ++ fTail f
        = (uiHead ui ++ host.data ++ portTail port)
          ++ ('/' :: (pt ++ (qTail q ++ fTail f))) := by
      rw [hpt]
      simp [List.append_assoc]
    rw [e1, spanNot_append hAuthFalse (by decide)]
    rw [hpt]
    simp [List.append_assoc]
  rw [parseSpecialRest_eq, hdrop, hspanFull]
  simp only
  rw [if_neg hauthne]
  have hnoatHP : '@' ∉ host.data ++ portTail port := by
    simp only [List.mem_append]
    rintro (hx | hx)
    · exact ((forbidden_facts (hhost _ hx).1).2.2.2.2.2.2) rfl
    · cases port with
      | none => simp [portTail] at hx
      | some p =>
        simp only [portTail, List.mem_cons] at hx
        rcases hx with hx | hx
        · exact absurd hx (by decide)
        · exact ((digit_facts ((hport p rfl).2.1 _ hx)).2.2.2.2.2.2) rfl
  cases ui with
  | none =>
    have hnoat : '@' ∉ uiHead none ++ host.data ++ portTail port := by
      simp only [uiHead, List.nil_append, List.append_assoc]
      simpa [List.append_assoc] using hnoatHP
    rw [splitAtLastCh_not_mem hnoat]
    have hrw : uiHead none ++ host.data ++ portTail port = host.data ++ portTail port := by
      simp [uiHead]
    rw [hrw]
    exact @parseHostPort_round scheme none host port path q f (by simp) hhne hhost hport hpne hpchars hqc hfc
  | some u0 =>
    obtain ⟨hu0ne, _⟩ := hui u0 rfl
    have hassoc : uiHead (some u0) ++ host.data ++ portTail port
        = u0.data ++ '@' :: (host.data ++ portTail port) := by
      simp [uiHead, List.append_assoc]
    rw [hassoc, splitAtLastCh_append hnoatHP]
    simp only
    rw [if_neg hu0ne]
    exact @parseHostPort_round scheme (some u0) host port path q f (by
      intro u hu
      simp only [Option.some.injEq] at hu
      subst hu
      exact hui u0 rfl) hhne hhost hport hpne hpchars hqc hfc

theorem data_http : ("http" : String).data = ['h', 't', 't', 'p'] := rfl

theorem data_https : ("https" : String).data = ['h', 't', 't', 'p', 's'] := rfl

theorem data_sep : ("://" : String).data = [':', '/', '/'] := rfl

theorem data_atS : ("@" : String).data = ['@'] := rfl

theorem data_colonS : (":" : String).data = [':'] := rfl

theorem data_qmS : ("?" : String).data = ['?'] := rfl

theorem data_hashS : ("#" : String).data = ['#'] := rfl

theorem data_nilS : ("" : String).data = [] := rfl

theorem serializeURL_data (scheme : String) (ui : Option String) (host : String)
    (port : Option String) (path : String) (q f : Option String) :
    (serializeURL (.special scheme ui host port path q f)).data
      = scheme.data ++ [':', '/', '/'] ++ uiHead ui ++ host.data ++ portTail port
        ++ path.data ++ qTail q ++ fTail f := by
  cases ui <;> cases port <;> cases q <;> cases f <;>
    simp [serializeURL, uiHead, portTail, qTail, fTail, String.data_append,
      data_sep, data_atS, data_colonS, data_qmS, data_hashS, data_nilS]

theorem serialize_chars_gt32 {scheme : String} {ui : Option String} {host : String}
    {port : Option String} {path : String} {q f : Option String}
    (w : wfURL (.special scheme ui host port path q f)) :
    ∀ c ∈ (serializeURL (.special scheme ui host port path q f)).data, 32 < c.toNat := by
  obtain ⟨hsch, hui, hhne, hhost, hport, hpne, hphead, hpchars, hqc, hfc⟩ := w
  rw [serializeURL_data]
  intro c hc
  simp only [List.mem_append] at hc
  rcases hc with ((((((hc | hc) | hc) | hc) | hc) | hc) | hc) | hc
  · rcases hsch with rfl | rfl
    · rw [data_http] at hc
      have hall : ∀ x ∈ ['h', 't', 't', 'p'], 32 < x.toNat := by decide
      exact hall c hc
    · rw [data_https] at hc
      have hall : ∀ x ∈ ['h', 't', 't', 'p', 's'], 32 < x.toNat := by decide
      exact hall c hc
  · have hall : ∀ x ∈ [':', '/', '/'], 32 < x.toNat := by decide
    exact hall c hc
  · cases ui with
    | none => simp [uiHead] at hc
    | some u0 =>
      simp only [uiHead, List.mem_append, List.mem_singleton] at hc
      rcases hc with hc | rfl
      · exact (uiSet_facts ((hui u0 rfl).2 c hc)).1
      · decide
  · exact (forbidden_facts (hhost c hc).1).1
  · cases port with
    | none => simp [portTail] at hc
    | some p =>
      simp only [portTail, List.mem_cons] at hc
      rcases hc with rfl | hc
      · decide
      · exact (digit_facts ((hport p rfl).2.1 c hc)).1
  · exact (pathSet_facts (hpchars c hc).1).1
  · cases q with
    | none => simp [qTail] at hc
    | some qs =>
      simp only [qTail, List.mem_cons] at hc
      rcases hc with rfl | hc
      · decide
      · exact (querySet_facts (hqc qs rfl c hc)).1
  · cases f with
    | none => simp [fTail] at hc
    | some fs =>
      simp only [fTail, List.mem_cons] at hc
      rcases hc with rfl | hc
      · decide
      · exact fragSet_facts (hfc fs rfl c hc)

theorem serialize_parse {u : URLRec} (w : wfURL u) :
    parseURL (serializeURL u) = some u := by
  cases u with
  | nonspecial sch r => exact (w : False).elim
  | special scheme ui host port path q f =>
    obtain ⟨hsch, hui, hhne, hhost, hport, hpne, hphead, hpchars, hqc, hfc⟩ := w
    have hchars := serialize_chars_gt32
      (⟨hsch, hui, hhne, hhost, hport, hpne, hphead, hpchars, hqc, hfc⟩ :
        wfURL (.special scheme ui host port path q f))
    rw [parseURL_eq]
    rw [preClean_id hchars]
    rw [serializeURL_data]
    rcases hsch with rfl | rfl
    · rw [data_http]
      have hnorm : ['h', 't', 't', 'p'] ++ [':', '/', '/'] ++ uiHead ui ++ host.data
          ++ portTail port ++ path.data ++ qTail q ++ fTail f
          = 'h' :: 't' :: 't' :: 'p' :: ':' :: '/' :: '/' ::
            (uiHead ui ++ host.data ++ portTail port ++ path.data ++ qTail q ++ fTail f) := by
        simp [List.append_assoc]
      rw [hnorm, splitScheme_http]
      simp only
      rw [show String.mk (List.map lowerCh ['h', 't', 't', 'p']) = "http" from rfl]
      rw [if_pos (by decide)]
      exact parseSpecialRest_round hui hhne hhost hport hpne hphead hpchars hqc hfc
    · rw [data_https]
      have hnorm : ['h', 't', 't', 'p', 's'] ++ [':', '/', '/'] ++ uiHead ui ++ host.data
          ++ portTail port ++ path.data ++ qTail q ++ fTail f
          = 'h' :: 't' :: 't' :: 'p' :: 's' :: ':' :: '/' :: '/' ::
            (uiHead ui ++ host.data ++ portTail port ++ path.data ++ qTail q ++ fTail f) := by
        simp [List.append_assoc]
      rw [hnorm, splitScheme_https]
      simp only
      rw [show String.mk (List.map lowerCh ['h', 't', 't', 'p', 's']) = "https" from rfl]
      rw [if_pos (by decide)]
      exact parseSpecialRest_round hui hhne hhost hport hpne hphead hpchars hqc hfc

/-! ### normalizeDest structure lemmas -/

theorem normalizeDest_eq (raw : String) : normalizeDest raw =
    if raw = "" then none
    else
      match parseURL (if hasScheme ((decodeURIComponent raw).getD raw)
          then (decodeURIComponent raw).getD raw
          else "https://" ++ (decodeURIComponent raw).getD raw) with
      | some u =>
        if URLRec.schemeOf u == "http" || URLRec.schemeOf u == "https" then
          some (serializeURL u)
        else none
      | none => none := rfl

theorem normalizeDest_some {raw s : String} (h : normalizeDest raw = some s) :
    ∃ u : URLRec, s = serializeURL u ∧ wfURL u ∧
      (URLRec.schemeOf u = "http" ∨ URLRec.schemeOf u = "https") := by
  rw [normalizeDest_eq] at h
  by_cases hr : raw = ""
  · rw [if_pos hr] at h
    simp at h
  · rw [if_neg hr] at h
    split at h
    · rename_i u heq
      by_cases hcond : (URLRec.schemeOf u == "http" || URLRec.schemeOf u == "https") = true
      · rw [if_pos hcond] at h
        simp only [Option.some.injEq] at h
        have hdisj : URLRec.schemeOf u = "http" ∨ URLRec.schemeOf u = "https" := by
          simpa [beq_iff_eq] using hcond
        exact ⟨u, h.symm, parseURL_wf heq hdisj, hdisj⟩
      · rw [if_neg hcond] at h
        simp at h
    · simp at h

theorem normalizeDest_parse {raw s : String} (h : normalizeDest raw = some s) :
    ∃ u : URLRec, parseURL s = some u ∧ s = serializeURL u ∧ wfURL u ∧
      (URLRec.schemeOf u = "http" ∨ URLRec.schemeOf u = "https") := by
  obtain ⟨u, hs, hwf, hsch⟩ := normalizeDest_some h
  exact ⟨u, by rw [hs]; exact serialize_parse hwf, hs, hwf, hsch⟩

theorem normalizeDest_hostname {raw s : String} (h : normalizeDest raw = some s) :
    ∃ host : String, hostnameOf s = some host ∧
      ∀ c ∈ host.data, isAsciiUpper c = false := by
  obtain ⟨u, hps, hs, hwf, hsch⟩ := normalizeDest_parse h
  cases u with
  | nonspecial sch r => exact (hwf : False).elim
  | special scheme ui host port path q f =>
    obtain ⟨_, _, _, hhost, _⟩ := hwf
    refine ⟨host, ?_, fun c hc => (hhost c hc).2⟩
    unfold hostnameOf
    rw [hps]

theorem normalizeDest_starts {raw s : String} (h : normalizeDest raw = some s) :
    ∃ r : String, s = "http://" ++ r ∨ s = "https://" ++ r := by
  obtain ⟨u, hs, hwf, hsch⟩ := normalizeDest_some h
  cases u with
  | nonspecial sch r => exact (hwf : False).elim
  | special scheme ui host port path q f =>
    refine ⟨String.mk (uiHead ui ++ host.data ++ portTail port ++ path.data
      ++ qTail q ++ fTail f), ?_⟩
    rcases hsch with hsch | hsch
    · left
      apply String.ext
      rw [hs, serializeURL_data, String.data_append]
      simp only [URLRec.schemeOf] at hsch
      rw [hsch, data_http]
      simp [List.append_assoc]
    · right
      apply String.ext
      rw [hs, serializeURL_data, String.data_append]
      simp only [URLRec.schemeOf] at hsch
      rw [hsch, data_https]
      simp [List.append_assoc]

theorem normalizeDest_data_cons {raw s : String} (h : normalizeDest raw = some s) :
    ∃ r : List Char,
      s.data = 'h' :: 't' :: 't' :: 'p' :: ':' :: '/' :: '/' :: r ∨
      s.data = 'h' :: 't' :: 't' :: 'p' :: 's' :: ':' :: '/' :: '/' :: r := by
  obtain ⟨r, hr | hr⟩ := normalizeDest_starts h
  · refine ⟨r.data, Or.inl ?_⟩
    rw [hr, String.data_append]
    rfl
  · refine ⟨r.data, Or.inr ?_⟩
    rw [hr, String.data_append]
    rfl

theorem normalizeDest_ne_empty {raw s : String} (h : normalizeDest raw = some s) :
    s ≠ "" := by
  obtain ⟨r, hr | hr⟩ := normalizeDest_data_cons h
  · exact data_ne_nil (by rw [hr]; simp)
  · exact data_ne_nil (by rw [hr]; simp)

/-- Idempotence of normalization on outputs that contain no percent sign. -/
theorem normalizeDest_idem {raw s : String} (h : normalizeDest raw = some s)
    (hp : '%' ∉ s.data) : normalizeDest s = some s := by
  obtain ⟨u, hps, hs, hwf, hsch⟩ := normalizeDest_parse h
  have hne : s ≠ "" := normalizeDest_ne_empty h
  have hhs : hasScheme s = true := by
    obtain ⟨r, hr | hr⟩ := normalizeDest_data_cons h
    · exact hasScheme_http hr
    · exact hasScheme_https hr
  rw [normalizeDest_eq, if_neg hne]
  rw [decodeURIComponent_id hp]
  simp only [Option.getD_some]
  rw [if_pos hhs]
  rw [hps]
  simp only
  rw [if_pos (by rcases hsch with hsch | hsch <;> simp [hsch])]
  rw [← hs]

/-! ### Handler behaviour lemmas -/

theorem handler_success {env : Env} {rid : Option String} {raw dest : String}
    {t : TrackerOutcome} (hraw : raw ≠ "") (hn : normalizeDest raw = some dest)
    (hallow : trimS (env.ALLOWED_DOMAINS.getD "") = "" ∨
      ∃ host, hostnameOf dest = some host ∧
        hostAllowed (env.ALLOWED_DOMAINS.getD "") host = true) :
    handler env ⟨rid, some raw⟩ t = handleOk env (rid.getD "") dest := by
  unfold handler
  simp only
  rw [if_neg hraw, hn]
  simp only
  rcases hallow with hA | ⟨host, hh, hA⟩
  · rw [if_neg (by simp [hA])]
  · by_cases hT : trimS (env.ALLOWED_DOMAINS.getD "") = ""
    · rw [if_neg (by simp [hT])]
    · rw [if_pos hT, hh]
      simp only
      rw [if_pos hA]

theorem handler_invalid {env : Env} {rid : Option String} {raw : String}
    {t : TrackerOutcome} (hraw : raw ≠ "") (hn : normalizeDest raw = none) :
    handler env ⟨rid, some raw⟩ t = (invalidResp, none) := by
  unfold handler
  simp only
  rw [if_neg hraw, hn]

theorem handler_cases (env : Env) (req : Req) (t : TrackerOutcome) :
    (handler env req t).1 = missingResp ∨ (handler env req t).1 = invalidResp ∨
    (handler env req t).1 = forbiddenResp ∨ (handler env req t).1 = serverErrorResp ∨
    ∃ d, (handler env req t).1 = redirectResp d := by
  obtain ⟨rid, dest⟩ := req
  cases dest with
  | none => left; rfl
  | some raw =>
    by_cases hraw : raw = ""
    · subst hraw
      left
      rfl
    · unfold handler
      simp only
      rw [if_neg hraw]
      cases hn : normalizeDest raw with
      | none =>
        right; left; rfl
      | some d =>
        simp only
        by_cases hT : trimS (Option.getD env.ALLOWED_DOMAINS "") ≠ ""
        · rw [if_pos hT]
          cases hh : hostnameOf d with
          | none => right; right; right; left; rfl
          | some host =>
            simp only
            by_cases hA : hostAllowed (Option.getD env.ALLOWED_DOMAINS "") host = true
            · rw [if_pos hA]
              right; right; right; right
              exact ⟨d, rfl⟩
            · rw [if_neg hA]
              right; right; left; rfl
        · rw [if_neg hT]
          right; right; right; right
          exact ⟨d, rfl⟩

theorem handler_snd_none {env : Env} {req : Req} {t : TrackerOutcome}
    (hT : env.TRACKER_URL.getD "" = "") : (handler env req t).2 = none := by
  obtain ⟨rid, dest⟩ := req
  cases dest with
  | none => rfl
  | some raw =>
    by_cases hraw : raw = ""
    · subst hraw
      rfl
    · unfold handler
      simp only
      rw [if_neg hraw]
      cases hn : normalizeDest raw with
      | none => rfl
      | some d =>
        simp only
        have hok : (handleOk env (rid.getD "") d).2 = none := by
          unfold handleOk
          simp [hT]
        by_cases hT2 : trimS (Option.getD env.ALLOWED_DOMAINS "") ≠ ""
        · rw [if_pos hT2]
          cases hh : hostnameOf d with
          | none => rfl
          | some host =>
            simp only
            by_cases hA : hostAllowed (Option.getD env.ALLOWED_DOMAINS "") host = true
            · rw [if_pos hA]
              exact hok
            · rw [if_neg hA]
        · rw [if_neg hT2]
          exact hok

theorem body_contains_href (d : String) :
    ∃ pre post : String,
      (redirectResp d).body = pre ++ ("href=\"" ++ d ++ "\"") ++ post := by
  refine ⟨"<html><body>Redirecting… If you are not redirected automatically, <a ",
    ">click here</a>.</body></html>", ?_⟩
  apply String.ext
  have h1 : ("<html><body>Redirecting… If you are not redirected automatically, <a href=\"" :
      String).data
      = ("<html><body>Redirecting… If you are not redirected automatically, <a " :
        String).data ++ ("href=\"" : String).data := rfl
  have h2 : ("\">click here</a>.</body></html>" : String).data
      = ("\"" : String).data ++ (">click here</a>.</body></html>" : String).data := rfl
  simp [redirectResp, String.data_append, h1, h2, List.append_assoc]

/-! ### Claim theorems -/

/-- C1 (counterexample): the claim as stated quantifies over every input
string whose normalized form fails to parse; the empty string is such an
input (its scheme-defaulted form `https://` does not parse), yet the handler
answers 400 "Missing dest parameter", not 400 "Invalid dest URL". -/
theorem C1_counterexample :
    normalizeDest "" = none ∧
    parseURL ("https://" ++ "") = none ∧
    (handler ⟨none, none⟩ ⟨none, some ""⟩ .ok).1 = missingResp ∧
    missingResp.body = "Missing dest parameter" ∧
    missingResp.body ≠ "Invalid dest URL" := by
  refine ⟨rfl, by decide, rfl, rfl, by decide⟩

/-- C1 (amended): for every NON-EMPTY dest string whose normalized form does
not parse as an http/https URL, the handler responds 400 with plain-text body
"Invalid dest URL" and attempts no tracker call; and normalization never
returns a URL with any scheme other than http or https. -/
theorem C1_invalid_dest (env : Env) (rid : Option String) (raw : String)
    (t : TrackerOutcome) (hraw : raw ≠ "") (hn : normalizeDest raw = none) :
    (handler env ⟨rid, some raw⟩ t = (invalidResp, none) ∧
      invalidResp.status = 400 ∧ invalidResp.body = "Invalid dest URL" ∧
      invalidResp.contentType = "text/plain; charset=utf-8") ∧
    (∀ raw2 s : String, normalizeDest raw2 = some s →
      ∃ r : String, s = "http://" ++ r ∨ s = "https://" ++ r) :=
  ⟨⟨handler_invalid hraw hn, rfl, rfl, rfl⟩,
    fun _ _ h2 => normalizeDest_starts h2⟩

/-- C1 (witness): the amended claim applied to `dest = "ftp://x"`. -/
theorem C1_witness :
    ("ftp://x" : String) ≠ "" ∧ normalizeDest "ftp://x" = none ∧
    ((handler ⟨none, none⟩ ⟨none, some "ftp://x"⟩ .ok = (invalidResp, none) ∧
      invalidResp.status = 400 ∧ invalidResp.body = "Invalid dest URL" ∧
      invalidResp.contentType = "text/plain; charset=utf-8") ∧
    (∀ raw2 s : String, normalizeDest raw2 = some s →
      ∃ r : String, s = "http://" ++ r ∨ s = "https://" ++ r)) :=
  ⟨by decide, by decide,
    C1_invalid_dest ⟨none, none⟩ none "ftp://x" .ok (by decide) (by decide)⟩

/-- C2: when the dest query parameter is absent or the empty string, the
handler responds 400 "Missing dest parameter" and no normalization,
allowlist check or tracker call is observable (no tracker request is
attempted, and the response is independent of the environment and tracker
outcome). -/
theorem C2_missing_dest (env : Env) (rid dest : Option String)
    (t : TrackerOutcome) (h : dest = none ∨ dest = some "") :
    handler env ⟨rid, dest⟩ t = (missingResp, none) ∧
    missingResp.status = 400 ∧ missingResp.body = "Missing dest parameter" ∧
    missingResp.contentType = "text/plain; charset=utf-8" := by
  rcases h with rfl | rfl
  · exact ⟨rfl, rfl, rfl, rfl⟩
  · exact ⟨rfl, rfl, rfl, rfl⟩

/-- C2 (witness): the claim applied to an absent dest parameter. -/
theorem C2_witness :
    ((none : Option String) = none ∨ (none : Option String) = some "") ∧
    (handler ⟨some "a", some "https://t.example"⟩ ⟨none, none⟩ .netError
      = (missingResp, none) ∧
    missingResp.status = 400 ∧ missingResp.body = "Missing dest parameter" ∧
    missingResp.contentType = "text/plain; charset=utf-8") :=
  ⟨Or.inl rfl,
    C2_missing_dest ⟨some "a", some "https://t.example"⟩ none none .netError (Or.inl rfl)⟩

/-- C3: normalization percent-decodes once (an encoded URL decodes to its
plain form; an undecodable string such as `example.com/%zz` is kept as-is
without failing the request), prepends `https://` when no scheme prefix is
present (`example.com/path` normalizes to `https://example.com/path`), and
end-to-end `?dest=example.com&rid=abc123` with no env config yields a 302
with Location `https://example.com/`, an HTML body containing a link to it,
and no tracker call. -/
theorem C3_normalization :
    normalizeDest "example.com/path" = some "https://example.com/path" ∧
    decodeURIComponent "https%3A%2F%2Fexample.com%2Fpath"
      = some "https://example.com/path" ∧
    normalizeDest "https%3A%2F%2Fexample.com%2Fpath"
      = some "https://example.com/path" ∧
    decodeURIComponent "example.com/%zz" = none ∧
    normalizeDest "example.com/%zz" = some "https://example.com/%zz" ∧
    hasScheme "example.com/path" = false ∧
    (handler ⟨none, none⟩ ⟨some "abc123", some "example.com"⟩ .ok).1.status = 302 ∧
    (handler ⟨none, none⟩ ⟨some "abc123", some "example.com"⟩ .ok).1.location
      = some "https://example.com/" ∧
    (∃ pre post : String,
      (handler ⟨none, none⟩ ⟨some "abc123", some "example.com"⟩ .ok).1.body
        = pre ++ ("href=\"" ++ "https://example.com/" ++ "\"") ++ post) ∧
    (handler ⟨none, none⟩ ⟨some "abc123", some "example.com"⟩ .ok).2 = none := by
  refine ⟨by decide, by decide, by decide, by decide, by decide, by decide,
    by decide, by decide, ?_, by decide⟩
  have h : (handler ⟨none, none⟩ ⟨some "abc123", some "example.com"⟩ .ok).1
      = redirectResp "https://example.com/" := by decide
  rw [h]
  exact body_contains_href "https://example.com/"

/-- C4 (counterexample): normalization is not idempotent: the raw input
`http://x/%253F` normalizes to `http://x/%3F`, but normalizing that output
again percent-decodes `%3F` to `?` and yields the different string
`http://x/?`. -/
theorem C4_counterexample :
    normalizeDest "http://x/%253F" = some "http://x/%3F" ∧
    normalizeDest "http://x/%3F" = some "http://x/?" ∧
    ("http://x/?" : String) ≠ "http://x/%3F" := by
  refine ⟨by decide, by decide, by decide⟩

/-- C4 (amended): normalization is idempotent on every input whose
normalized form contains no percent sign: if normalization succeeds and the
resulting URL string has no `%` character, normalizing that string again
yields the same string. -/
theorem C4_idempotent (raw s : String) (h : normalizeDest raw = some s)
    (hp : '%' ∉ s.data) : normalizeDest s = some s :=
  normalizeDest_idem h hp

/-- C4 (witness): the amended claim applied to `raw = "example.com"`. -/
theorem C4_witness :
    normalizeDest "example.com" = some "https://example.com/" ∧
    '%' ∉ ("https://example.com/" : String).data ∧
    normalizeDest "https://example.com/" = some "https://example.com/" :=
  ⟨by decide, by decide, C4_idempotent "example.com" "https://example.com/"
    (by decide) (by decide)⟩

/-- C5: the allowlist is obtained by splitting ALLOWED_DOMAINS on commas,
trimming whitespace and dropping empty entries; a hostname is allowed iff it
equals some entry or ends with "." followed by an entry; with
ALLOWED_DOMAINS="behance.net", dest host sub.behance.net redirects (302) and
dest host evilbehance.net is denied with 403 "Destination domain not
allowed". -/
theorem C5_allowlist :
    (∀ allowed host : String, hostAllowed allowed host = true ↔
      ∃ a, a ∈ allowedList allowed ∧ hostMatches host a = true) ∧
    (∀ host a : String, hostMatches host a = true ↔
      (host = a ∨ endsWithS host ("." ++ a) = true)) ∧
    allowedList "behance.net" = ["behance.net"] ∧
    allowedList " behance.net , ,example.com " = ["behance.net", "example.com"] ∧
    (handler ⟨some "behance.net", none⟩ ⟨none, some "sub.behance.net"⟩ .ok).1
      = redirectResp "https://sub.behance.net/" ∧
    (handler ⟨some "behance.net", none⟩ ⟨none, some "evilbehance.net"⟩ .ok).1
      = forbiddenResp ∧
    forbiddenResp.status = 403 ∧
    forbiddenResp.body = "Destination domain not allowed" := by
  refine ⟨?_, ?_, by decide, by decide, by decide, by decide, rfl, rfl⟩
  · intro allowed host
    simp [hostAllowed, List.any_eq_true]
  · intro host a
    simp [hostMatches, Bool.or_eq_true, beq_iff_eq]

/-- C6: when ALLOWED_DOMAINS is unset or blank, every destination that
passes normalization is allowed unconditionally: the handler redirects and a
403 is impossible on that path. -/
theorem C6_empty_allowlist (env : Env) (rid : Option String) (raw dest : String)
    (t : TrackerOutcome) (hA : trimS (env.ALLOWED_DOMAINS.getD "") = "")
    (hraw : raw ≠ "") (hn : normalizeDest raw = some dest) :
    (handler env ⟨rid, some raw⟩ t).1 = redirectResp dest ∧
    (handler env ⟨rid, some raw⟩ t).1.status = 302 ∧
    (handler env ⟨rid, some raw⟩ t).1 ≠ forbiddenResp := by
  have h := @handler_success env rid raw dest t hraw hn (Or.inl hA)
  rw [h]
  refine ⟨rfl, rfl, ?_⟩
  intro he
  have hst := congrArg Response.status he
  simp [handleOk, redirectResp, forbiddenResp] at hst

/-- C6 (witness): the claim applied to `dest = "example.com"` with
ALLOWED_DOMAINS unset. -/
theorem C6_witness :
    trimS ((Env.mk none none).ALLOWED_DOMAINS.getD "") = "" ∧
    ("example.com" : String) ≠ "" ∧
    normalizeDest "example.com" = some "https://example.com/" ∧
    ((handler ⟨none, none⟩ ⟨none, some "example.com"⟩ .ok).1
        = redirectResp "https://example.com/" ∧
      (handler ⟨none, none⟩ ⟨none, some "example.com"⟩ .ok).1.status = 302 ∧
      (handler ⟨none, none⟩ ⟨none, some "example.com"⟩ .ok).1 ≠ forbiddenResp) :=
  ⟨rfl, by decide, by decide,
    C6_empty_allowlist ⟨none, none⟩ none "example.com" "https://example.com/" .ok
      rfl (by decide) (by decide)⟩

/-- C7: the handler never inspects the outcome of the tracker call (network
error, non-2xx, timeout or abort are all swallowed): the whole result is
independent of the tracker outcome, and on every request that passes
validation and the allowlist check the response is the 302 redirect with
Location equal to the normalized destination and an HTML body containing a
link to it. -/
theorem C7_tracker_independent (env : Env) (rid : Option String)
    (raw dest : String) (t t2 : TrackerOutcome) (hraw : raw ≠ "")
    (hn : normalizeDest raw = some dest)
    (hallow : trimS (env.ALLOWED_DOMAINS.getD "") = "" ∨
      ∃ host, hostnameOf dest = some host ∧
        hostAllowed (env.ALLOWED_DOMAINS.getD "") host = true) :
    (∀ env2 req2, handler env2 req2 t = handler env2 req2 t2) ∧
    (handler env ⟨rid, some raw⟩ t).1 = redirectResp dest ∧
    (redirectResp dest).status = 302 ∧
    (redirectResp dest).location = some dest ∧
    (redirectResp dest).contentType = "text/html; charset=utf-8" ∧
    ∃ pre post : String,
      (redirectResp dest).body = pre ++ ("href=\"" ++ dest ++ "\"") ++ post := by
  refine ⟨fun env2 req2 => rfl, ?_, rfl, rfl, rfl, body_contains_href dest⟩
  rw [handler_success hraw hn hallow]
  rfl

/-- C7 (witness): the claim applied to `dest = "example.com"` comparing a
timeout outcome against a success outcome. -/
theorem C7_witness :
    ("example.com" : String) ≠ "" ∧
    normalizeDest "example.com" = some "https://example.com/" ∧
    (trimS ((Env.mk none (some "https://t.example")).ALLOWED_DOMAINS.getD "") = "" ∨
      ∃ host, hostnameOf "https://example.com/" = some host ∧
        hostAllowed ((Env.mk none (some "https://t.example")).ALLOWED_DOMAINS.getD "")
          host = true) ∧
    ((∀ env2 req2, handler env2 req2 .timedOut = handler env2 req2 .ok) ∧
      (handler ⟨none, some "https://t.example"⟩ ⟨none, some "example.com"⟩ .timedOut).1
        = redirectResp "https://example.com/" ∧
      (redirectResp "https://example.com/").status = 302 ∧
      (redirectResp "https://example.com/").location = some "https://example.com/" ∧
      (redirectResp "https://example.com/").contentType = "text/html; charset=utf-8" ∧
      ∃ pre post : String, (redirectResp "https://example.com/").body
        = pre ++ ("href=\"" ++ "https://example.com/" ++ "\"") ++ post) :=
  ⟨by decide, by decide, Or.inl rfl,
    C7_tracker_independent ⟨none, some "https://t.example"⟩ none "example.com"
      "https://example.com/" .timedOut .ok (by decide) (by decide) (Or.inl rfl)⟩

/-- C8: when TRACKER_URL is unset or empty no outbound tracker request is
attempted on any path, and every request that passes validation and the
allowlist check still receives the unchanged 302 redirect. -/
theorem C8_no_tracker (env : Env) (req : Req) (t : TrackerOutcome)
    (hT : env.TRACKER_URL.getD "" = "") :
    (handler env req t).2 = none ∧
    (∀ rid : Option String, ∀ raw dest : String, raw ≠ "" →
      normalizeDest raw = some dest →
      (trimS (env.ALLOWED_DOMAINS.getD "") = "" ∨
        ∃ host, hostnameOf dest = some host ∧
          hostAllowed (env.ALLOWED_DOMAINS.getD "") host = true) →
      handler env ⟨rid, some raw⟩ t = (redirectResp dest, none)) := by
  refine ⟨handler_snd_none hT, ?_⟩
  intro rid raw dest hraw hn hallow
  rw [handler_success hraw hn hallow]
  unfold handleOk
  simp [hT]

/-- C8 (witness): the claim applied to `dest = "example.com"` with
TRACKER_URL unset. -/
theorem C8_witness :
    ((Env.mk none none).TRACKER_URL.getD "" = "") ∧
    ((handler ⟨none, none⟩ ⟨none, some "example.com"⟩ .ok).2 = none ∧
    (∀ rid : Option String, ∀ raw dest : String, raw ≠ "" →
      normalizeDest raw = some dest →
      (trimS ((Env.mk none none).ALLOWED_DOMAINS.getD "") = "" ∨
        ∃ host, hostnameOf dest = some host ∧
          hostAllowed ((Env.mk none none).ALLOWED_DOMAINS.getD "") host = true) →
      handler ⟨none, none⟩ ⟨rid, some raw⟩ .ok = (redirectResp dest, none))) :=
  ⟨rfl, C8_no_tracker ⟨none, none⟩ ⟨none, some "example.com"⟩ .ok rfl⟩

/-- C9: on every code path the handler emits exactly one response (it is a
total function into a single response), and that response is one of the five
cases: 400 "Missing dest parameter", 400 "Invalid dest URL", 403
"Destination domain not allowed", a 302 redirect, or 500 "Server error". -/
theorem C9_response_taxonomy (env : Env) (req : Req) (t : TrackerOutcome) :
    ((handler env req t).1 = missingResp ∨ (handler env req t).1 = invalidResp ∨
      (handler env req t).1 = forbiddenResp ∨ (handler env req t).1 = serverErrorResp ∨
      ∃ d, (handler env req t).1 = redirectResp d) ∧
    missingResp.status = 400 ∧ invalidResp.status = 400 ∧
    forbiddenResp.status = 403 ∧ serverErrorResp.status = 500 ∧
    ∀ d, (redirectResp d).status = 302 :=
  ⟨handler_cases env req t, rfl, rfl, rfl, rfl, fun _ => rfl⟩

/-- C10: the allowlist comparison is case-sensitive while the parsed
hostname of a normalized destination is always lowercase, so an
ALLOWED_DOMAINS entry containing an uppercase letter can never match any
destination hostname. -/
theorem C10_uppercase_entry (raw s host a : String)
    (hn : normalizeDest raw = some s) (hh : hostnameOf s = some host)
    (hupper : ∃ c, c ∈ a.data ∧ isAsciiUpper c = true) :
    hostMatches host a = false := by
  obtain ⟨host2, hh2, hlow⟩ := normalizeDest_hostname hn
  rw [hh] at hh2
  simp only [Option.some.injEq] at hh2
  subst hh2
  obtain ⟨c, hca, hcu⟩ := hupper
  unfold hostMatches
  rw [Bool.or_eq_false_iff]
  constructor
  · rw [beq_eq_false_iff_ne]
    intro he
    subst he
    rw [hlow c hca] at hcu
    exact Bool.false_ne_true hcu
  · cases hE : endsWithS host ("." ++ a)
    · rfl
    · exfalso
      have hsub := leadsWith_sub hE
      have hcmem : c ∈ ("." ++ a).data.reverse := by
        rw [String.data_append]
        simp [hca]
      have := hsub c hcmem
      rw [List.mem_reverse] at this
      rw [hlow c this] at hcu
      exact Bool.false_ne_true hcu

/-- C10 (witness): the claim applied to entry "Behance.net" and destination
host "sub.behance.net". -/
theorem C10_witness :
    normalizeDest "sub.behance.net" = some "https://sub.behance.net/" ∧
    hostnameOf "https://sub.behance.net/" = some "sub.behance.net" ∧
    (∃ c, c ∈ ("Behance.net" : String).data ∧ isAsciiUpper c = true) ∧
    hostMatches "sub.behance.net" "Behance.net" = false :=
  ⟨by decide, by decide, ⟨'B', by decide, by decide⟩,
    C10_uppercase_entry "sub.behance.net" "https://sub.behance.net/"
      "sub.behance.net" "Behance.net" (by decide) (by decide)
      ⟨'B', by decide, by decide⟩⟩

end Redirect
